import Mathlib

/-!
# Shared-memory liveness / allocation analysis and IR instruction construction

A shallow embedding of

* `include/triton/codegen/analysis/liveness.h`   (`segment`, `buffer_t`, `liveness` accessors),
* `include/triton/codegen/analysis/allocation.h` (`allocation` accessors),
* `lib/ir/instructions.cpp`                      (instruction constructors and factories).

Conventions of the embedding.

* `unsigned` / `size_t` quantities are natural numbers.  Only comparisons are performed
  on slot indices and buffer ids, so no wrap-around can occur in the embedded functions.
* A pointer is the address of its pointee (`Nat`); a possibly-null pointer is an `Option`.
* `std::map<K, V>` is an association list, searched with the strict weak order of the map.
* `assert` failures and the `std::out_of_range` thrown by `std::map::at` are values of
  `error`, returned through `Except`.
-/

namespace Triton

/-! ## Errors -/

/-- The two ways in which an embedded function can fail. -/
inductive error where
  /-- `std::map::at` on a missing key throws `std::out_of_range`. -/
  | out_of_range : error
  /-- A failed `assert(cond && "message")`. -/
  | assertion (msg : String) : error
  /-- Indexing a `std::vector` past its size: undefined behaviour, the embedding stops here. -/
  | out_of_bounds : error
  deriving DecidableEq, Repr

/-- `assert(c && msg)`. -/
def assert (c : Bool) (msg : String) : Except error Unit :=
  if c then .ok () else .error (.assertion msg)

/-- Whether a computation ended in an error. -/
def failed {α : Type} : Except error α → Bool
  | .ok _ => false
  | .error _ => true

/-! ## `std::map` -/

/-- `std::map<K,V>::find`: the entry whose key is equivalent to `k` under the strict
weak order `lt` of the map (neither key is less than the other), if there is one. -/
def map_find {K V : Type} (lt : K → K → Bool) (m : List (K × V)) (k : K) : Option (K × V) :=
  m.find? (fun e => !(lt e.1 k) && !(lt k e.1))

/-- `std::map<K,V>::at`: the mapped value, or `std::out_of_range`. -/
def map_at {K V : Type} (lt : K → K → Bool) (m : List (K × V)) (k : K) : Except error V :=
  match map_find lt m k with
  | some e => .ok e.2
  | none => .error .out_of_range

/-- The order `std::less` on pointers (addresses). -/
def ptr_lt (a b : Nat) : Bool := decide (a < b)

/-! ## `liveness.h`: segments and buffers -/

/-- `typedef unsigned slot_index;` -/
abbrev slot_index := Nat

/-- `struct segment { slot_index start; slot_index end; ... }` -/
structure segment where
  start : Nat
  «end» : Nat
  deriving DecidableEq, Repr

/-- `bool contains(slot_index idx) const { return start <= idx && idx < end; }` -/
def segment.contains (s : segment) (idx : slot_index) : Bool :=
  decide (s.start ≤ idx) && decide (idx < s.«end»)

/-- `bool intersect(const segment &Other){ return contains(Other.start) || Other.contains(start); }` -/
def segment.intersect (s : segment) (Other : segment) : Bool :=
  s.contains Other.start || Other.contains s.start

/-- `struct buffer_t { unsigned id; size_t size; ... }` -/
structure buffer_t where
  id : Nat
  size : Nat
  deriving DecidableEq, Repr

/-- `bool operator<(buffer_t other) const { return id < other.id; }` -/
def buffer_t.lt (a other : buffer_t) : Bool := decide (a.id < other.id)

/-- `struct double_buffer_info_t { ir::value* latch; ir::phi_node* phi; }` -/
structure double_buffer_info_t where
  latch : Nat
  phi : Nat
  deriving DecidableEq, Repr

/-- The data members of `class liveness` (the `tiles_` pointer is kept as an address). -/
structure liveness where
  tiles_ : Nat
  has_dedicated_storage_ : List (Nat × Bool)
  indices : List (Nat × slot_index)
  intervals_ : List (buffer_t × segment)
  double_ : List (Nat × double_buffer_info_t)
  parents_ : List (Nat × List Nat)
  nodes_ : List Nat
  graph_ : List (Nat × List Nat)
  groups_ : List (Nat × buffer_t)
  values_ : List (buffer_t × List Nat)
  deriving DecidableEq, Repr

/-- `buffer_t get_buffer(ir::value *v) const { return groups_.at(v); }`
The accessor is returned together with the state of the object after the call. -/
def liveness.get_buffer (self : liveness) (v : Nat) : Except error buffer_t × liveness :=
  (map_at ptr_lt self.groups_ v, self)

/-- `bool has_double(ir::value *x) const { return double_.find(x) != double_.end(); }` -/
def liveness.has_double (self : liveness) (x : Nat) : Bool × liveness :=
  ((map_find ptr_lt self.double_ x).isSome, self)

/-- `double_buffer_info_t get_double(ir::value *x) const { return double_.at(x); }` -/
def liveness.get_double (self : liveness) (x : Nat) :
    Except error double_buffer_info_t × liveness :=
  (map_at ptr_lt self.double_ x, self)

/-- `segment get_interval(buffer_t v) const { return intervals_.at(v); }` -/
def liveness.get_interval (self : liveness) (v : buffer_t) : Except error segment × liveness :=
  (map_at buffer_t.lt self.intervals_ v, self)

/-- `std::vector<ir::value*> get_values(buffer_t x) const { return values_.at(x); }` -/
def liveness.get_values (self : liveness) (x : buffer_t) : Except error (List Nat) × liveness :=
  (map_at buffer_t.lt self.values_ x, self)

/-! ### Alias graph and buffer grouping

`liveness::run`, `make_graph` and `connected_components` are declared in `liveness.h` but
their bodies (`liveness.cpp`) are not among the sources; they are modelled from sections
4.2, 4.3 and 9 of the specification, on the containers that `liveness.h` declares. -/

/-- `std::set<node_t>::insert`: the set is a strictly ascending list. -/
def set_insert : List Nat → Nat → List Nat
  | [], x => [x]
  | a :: t, x =>
    if x < a then x :: a :: t else if x = a then a :: t else a :: set_insert t x

/-- `std::set<node_t>::erase(x)`. -/
def set_erase (s : List Nat) (x : Nat) : List Nat := s.filter (fun y => decide (y ≠ x))

/-- `m[k] = v` on a `std::map`: the entry with a key equivalent to `k` gets the value `v`;
without such an entry a new one is made. -/
def map_set {K V : Type} (lt : K → K → Bool) : List (K × V) → K → V → List (K × V)
  | [], k, v => [(k, v)]
  | e :: t, k, v =>
    if !(lt e.1 k) && !(lt k e.1) then (e.1, v) :: t else e :: map_set lt t k v

/-- The neighbours `graph[x]` of a node (the empty set for a node without entry). -/
def adj (graph : List (Nat × List Nat)) (x : Nat) : List Nat :=
  match map_find ptr_lt graph x with
  | some e => e.2
  | none => []

/-- `graph[x].insert(y)`. -/
def graph_insert (graph : List (Nat × List Nat)) (x y : Nat) : List (Nat × List Nat) :=
  map_set ptr_lt graph x (set_insert (adj graph x) y)

/-- Modelled from the spec: the classification of an instruction that section 9 asks the IR
to expose, `storage_role(instruction) -> {View{parents}, Producer, None}`: a view op with
the operands it inherits storage from (`get_parents`), a storage-producing op, or an op
that never touches shared memory. -/
inductive storage_role where
  | View (parents : List Nat) : storage_role
  | Producer : storage_role
  | None : storage_role
  deriving DecidableEq, Repr

/-- Modelled from the spec: an instruction as the analysis reads it (section 6): its
address (the identity of the value it defines) and its storage role. -/
structure ir_instruction where
  v : Nat
  role : storage_role
  deriving DecidableEq, Repr

/-- Modelled from the spec: the alias edge of section 4.2 between a view op `i` and one
operand `p` it inherits storage from: `graph_[i].insert(p); graph_[p].insert(i);
nodes_.insert(i); nodes_.insert(p);` -/
def liveness.add_alias (self : liveness) (i p : Nat) : liveness :=
  { self with
    graph_ := graph_insert (graph_insert self.graph_ i p) p i,
    nodes_ := set_insert (set_insert self.nodes_ i) p }

/-- Modelled from the spec: `liveness::make_graph` (section 4.2; body not among the
sources).  A view op gets an edge, in both directions, to each operand it inherits storage
from, and both ends become nodes; a storage-producing op becomes a node without edges;
everything else is ignored. -/
def liveness.make_graph (self : liveness) (i : ir_instruction) : liveness :=
  match i.role with
  | .View parents => parents.foldl (fun l p => l.add_alias i.v p) self
  | .Producer => { self with nodes_ := set_insert self.nodes_ i.v }
  | .None => self

/-- Whether `a` and `b` are joined by a direct view-op alias edge of the module: one of
them is a view op and the other one of the operands it inherits storage from. -/
def alias_edge (module : List ir_instruction) (a b : Nat) : Bool :=
  module.any (fun i =>
    match i.role with
    | .View parents =>
      (decide (i.v = a) && decide (b ∈ parents)) || (decide (i.v = b) && decide (a ∈ parents))
    | _ => false)

/-- The alias edge that the view op `i` contributes between `z` and `w`. -/
def edge_of (i : ir_instruction) (z w : Nat) : Prop :=
  ∃ ps, i.role = .View ps ∧ ∃ p ∈ ps, (z = i.v ∧ w = p) ∨ (z = p ∧ w = i.v)

/-- Modelled from the spec: the traversal of one connected component (section 4.3,
"iterative DFS/BFS per unvisited node").  `work` is the worklist, `nodes` the set of nodes
not visited so far, `members` the nodes visited by this traversal.  A node taken from the
worklist is visited when it is still in `nodes`: it leaves `nodes`, joins the members and
its neighbours join the worklist. -/
def component : List (Nat × List Nat) → Nat → List Nat → List Nat → List Nat →
    List Nat × List Nat
  | _, 0, _, nodes, members => (nodes, members)
  | _, _ + 1, [], nodes, members => (nodes, members)
  | graph, fuel + 1, x :: work, nodes, members =>
    if x ∈ nodes then
      component graph fuel (adj graph x ++ work) (set_erase nodes x) (members ++ [x])
    else component graph fuel work nodes members

/-- A number of steps after which the traversal of a component from one seed has emptied
its worklist: every visit of a node `v` adds `|graph[v]|` entries to the worklist and every
step removes one. -/
def component_steps (graph : List (Nat × List Nat)) (nodes : List Nat) : Nat :=
  (nodes.map (fun v => (adj graph v).length + 1)).sum + 1

/-- Modelled from the spec: `liveness::connected_components(x, nodes, graph, group_id)`
(section 4.3; declared in `liveness.h`, body not among the sources).  The component of the
seed `x` is removed from `nodes`; it is assigned one `buffer_t` with id `group_id` and, as
size, the maximum of `num_bytes` over its members; every member is mapped to that buffer in
`groups_`, and `values_` maps the buffer to the members. -/
def liveness.connected_components (self : liveness) (num_bytes : Nat → Nat) (x : Nat)
    (nodes : List Nat) (graph : List (Nat × List Nat)) (group_id : Nat) :
    liveness × List Nat :=
  let r := component graph (component_steps graph nodes) [x] nodes []
  let buffer : buffer_t := ⟨group_id, r.2.foldl (fun m v => max m (num_bytes v)) 0⟩
  ({ self with
      groups_ := r.2.foldl (fun g v => map_set ptr_lt g v buffer) self.groups_,
      values_ := map_set buffer_t.lt self.values_ buffer r.2 }, r.1)

/-- Modelled from the spec: the grouping loop of `liveness::run` (section 4.3): as long
as there is an unvisited node, the first one seeds a component with a fresh id. -/
def liveness.group : Nat → liveness → (Nat → Nat) → Nat → liveness
  | 0, self, _, _ => self
  | fuel + 1, self, num_bytes, group_id =>
    match self.nodes_ with
    | [] => self
    | x :: _ =>
      let r := self.connected_components num_bytes x self.nodes_ self.graph_ group_id
      liveness.group fuel { r.1 with nodes_ := r.2 } num_bytes (group_id + 1)

/-- Modelled from the spec: the stages of `liveness::run` that build the alias graph and
the buffer groups (sections 4.2 and 4.3; body not among the sources).  All structures are
rebuilt from scratch; `module` lists the instructions in program order and `num_bytes` is
the sizing oracle.  The stages that fill `indices`, `intervals_` and `double_` are left
out: they do not write `graph_`, `groups_` or `values_`. -/
def liveness.run (tiles : Nat) (num_bytes : Nat → Nat) (module : List ir_instruction) :
    liveness :=
  let l0 : liveness := ⟨tiles, [], [], [], [], [], [], [], [], []⟩
  let l1 := module.foldl liveness.make_graph l0
  liveness.group l1.nodes_.length l1 num_bytes 0

/-! ## `allocation.h` -/

/-- The data members of `class allocation` (the two dependences are kept as addresses). -/
structure allocation where
  offsets_ : List (Nat × Nat)
  allocated_size_ : Nat
  liveness_ : Nat
  tiles_ : Nat
  deriving DecidableEq, Repr

/-- `bool has_offset(ir::value *x) const { return offsets_.find(x) != offsets_.end(); }` -/
def allocation.has_offset (self : allocation) (x : Nat) : Bool × allocation :=
  ((map_find ptr_lt self.offsets_ x).isSome, self)

/-- `unsigned offset(ir::value *x) const { return offsets_.at(x); }` -/
def allocation.offset (self : allocation) (x : Nat) : Except error Nat × allocation :=
  (map_at ptr_lt self.offsets_ x, self)

/-- `unsigned allocated_size() const { return allocated_size_; }` -/
def allocation.allocated_size (self : allocation) : Nat × allocation :=
  (self.allocated_size_, self)

/-! ### Offset assignment

`allocation::run` is declared in `allocation.h` but its body (`allocation.cpp`) is not among
the sources; it is modelled from section 4.5 of the specification. -/

/-- A buffer that has been assigned an offset: the buffer, its live range, the offset and
the number of bytes reserved for it. -/
structure placed where
  buffer : buffer_t
  interval : segment
  offset : Nat
  bytes : Nat
  deriving DecidableEq, Repr

/-- Modelled from the spec: the processing order of section 4.5, "ordered by
`interval.start` (ties broken by ascending `buffer_t.id`)". -/
def scan_le (a b : buffer_t × segment) : Prop :=
  a.2.start < b.2.start ∨ (a.2.start = b.2.start ∧ a.1.id ≤ b.1.id)

instance scan_le_decidable : DecidableRel scan_le := fun a b => by
  unfold scan_le
  exact inferInstance

instance scan_le_total : IsTotal (buffer_t × segment) scan_le where
  total a b := by
    unfold scan_le
    omega

instance scan_le_trans : IsTrans (buffer_t × segment) scan_le where
  trans a b c h1 h2 := by
    unfold scan_le at h1 h2 ⊢
    omega

/-- Whether the byte ranges `[o1, o1 + n1)` and `[o2, o2 + n2)` have a byte in common. -/
def overlaps (o1 n1 o2 n2 : Nat) : Bool :=
  decide (0 < n1) && decide (0 < n2) && decide (o1 < o2 + n2) && decide (o2 < o1 + n1)

/-- Whether `n` bytes at offset `o` overlap the range of no live buffer. -/
def fits (live : List placed) (o n : Nat) : Bool :=
  live.all (fun p => !(overlaps o n p.offset p.bytes))

/-- Modelled from the spec: "find the lowest offset not overlapping any currently-live
buffer's range (first-fit over a free-list of byte ranges)" of section 4.5.  The free ranges
start at offset 0 and at the end of a live range; the lowest of these starts at which `n`
bytes fit is taken.  The highest end of a live range always fits. -/
def first_fit (live : List placed) (n : Nat) : Nat :=
  let ends := live.map (fun p => p.offset + p.bytes)
  ((0 :: ends).filter (fun o => fits live o n)).foldl min (ends.foldl max 0)

/-- Modelled from the spec: the scan of section 4.5 over the buffers in processing order.
`live` holds the buffers "whose interval is still live at the current scan point together
with their occupied byte ranges".  When the interval of a buffer starts, the expired buffers
(`interval end ≤ current start`) are retired, the buffer gets the first-fit offset and joins
the live set.  `bytes` is the number of bytes to reserve for a buffer. -/
def allocation.scan (bytes : buffer_t → Nat) :
    List (buffer_t × segment) → List placed → List placed
  | [], _ => []
  | (b, s) :: rest, live =>
    let live1 := live.filter (fun p => !(decide (p.interval.«end» ≤ s.start)))
    let p : placed := ⟨b, s, first_fit live1 (bytes b), bytes b⟩
    p :: allocation.scan bytes rest (live1 ++ [p])

/-- Modelled from the spec: the bytes reserved for a buffer (sections 4.4 and 4.5):
`2 × size` when one of the values of the buffer is flagged for double buffering, and `size`
otherwise. -/
def allocation.reserved (live : liveness) (b : buffer_t) : Nat :=
  match (live.get_values b).1 with
  | .ok vs => if vs.any (fun v => (live.has_double v).1) then 2 * b.size else b.size
  | .error _ => b.size

/-- Modelled from the spec: the offsets that `allocation::run` assigns to the buffers of
`liveness_->intervals()` (section 4.5). -/
def allocation.assign (live : liveness) : List placed :=
  allocation.scan (allocation.reserved live) (live.intervals_.insertionSort scan_le) []

/-- Modelled from the spec: `allocation::run` (section 4.5; declared in `allocation.h`,
body not among the sources).  Every value of a buffer gets the offset of the buffer
(`offset` is "keyed by value identity, resolved internally to the owning buffer") and
`allocated_size_` is the high-water mark of the assigned ranges. -/
def allocation.run (self : allocation) (live : liveness) : allocation :=
  { self with
    offsets_ := (allocation.assign live).foldl (fun m p =>
      match (live.get_values p.buffer).1 with
      | .ok vs => vs.foldl (fun m v => map_set ptr_lt m v p.offset) m
      | .error _ => m) [],
    allocated_size_ := (allocation.assign live).foldl (fun h p => max h (p.offset + p.bytes)) 0 }

/-! ## `instructions.cpp`: the IR objects it works on -/

/-- Modelled from the spec: `ir/type.h` is not among the sources.  Types are uniqued per
context, so that pointer equality of `type*` is equality of the types; the kinds are the
ones `instructions.cpp` asks about (void, label, floating point, integer of a bit width,
pointer, tile). -/
inductive type where
  | void_ty : type
  | label_ty : type
  | half_ty : type
  | float_ty : type
  | double_ty : type
  | integer_ty (bitwidth : Nat) : type
  | pointer_ty (element : type) (address_space : Nat) : type
  | tile_ty (element : type) (shapes : List Nat) : type
  deriving DecidableEq, Repr

/-- Modelled from the spec: `type::is_integer_ty(unsigned bitwidth)` of the missing
`ir/type.h`: the type is the integer type of exactly that width. -/
def type.is_integer_ty (t : type) (bitwidth : Nat) : Bool :=
  decide (t = type.integer_ty bitwidth)

/-- Modelled from the spec: a `value` of the missing `ir/value.h`, seen through a
`value*`: the address of the object and the type that `get_type()` returns. -/
structure value where
  addr : Nat
  ty : type
  deriving DecidableEq, Repr

/-- `value::get_type()`. -/
def value.get_type (v : value) : type := v.ty

/-- Modelled from the spec: a `basic_block` of the missing `ir/basic_block.h`, seen through
a `basic_block*`: its address and its context.  A basic block is a `value` of label type. -/
structure basic_block where
  addr : Nat
  ctx : Nat
  deriving DecidableEq, Repr

/-- The upcast `basic_block*` to `value*`. -/
def basic_block.as_value (b : basic_block) : value := ⟨b.addr, type.label_ty⟩

/-- The instruction lists (`get_inst_list()`) of the basic blocks, by block address; the
entries are addresses of instructions. -/
abbrev block_store := Nat → List Nat

/-- Modelled from the spec: the `user` part of an instruction (missing `ir/value.h`): its
type and the operand vector `ops_`, and `parent_`, the block that `get_parent()` returns
(null when the instruction is in no block). -/
structure instruction where
  addr : Nat
  ty : type
  ops_ : List (Option value)
  parent_ : Option Nat
  deriving DecidableEq, Repr

/-- `user::get_num_operands()`: the size of the operand vector. -/
def instruction.get_num_operands (i : instruction) : Nat := i.ops_.length

/-- Modelled from the spec: `user::set_operand(i, x)` of the missing `ir/value.cpp`:
`assert(i < ops_.size() && "set_operand() out of range!"); ops_[i] = x;` -/
def instruction.set_operand (self : instruction) (i : Nat) (x : Option value) :
    Except error instruction := do
  assert (decide (i < self.ops_.length)) "set_operand() out of range!"
  pure { self with ops_ := self.ops_.set i x }

/-- `std::vector::insert(std::find(begin, end, next), x)`: `x` goes right before the first
occurrence of `next`, or at the end when `next` does not occur. -/
def insert_before (l : List Nat) (next x : Nat) : List Nat :=
  match l with
  | [] => [x]
  | y :: ys => if y = next then x :: y :: ys else y :: insert_before ys next x

/--
```
instruction::instruction(type *ty, unsigned num_ops, const std::string &name, instruction *next)
    : user(ty, num_ops, name) {
  if(next){
    basic_block *block = next->get_parent();
    assert(block && "Next instruction is not in a basic block!");
    auto it = std::find(block->begin(), block->end(), next);
    block->get_inst_list().insert(it, next);
  }
}
```
`self` is the address of the object under construction. -/
def instruction.ctor (self : Nat) (ty : type) (num_ops : Nat) (next : Option instruction)
    (σ : block_store) : Except error (instruction × block_store) :=
  let this : instruction := ⟨self, ty, List.replicate num_ops none, none⟩
  match next with
  | none => pure (this, σ)
  | some n =>
    match n.parent_ with
    | none => .error (.assertion "Next instruction is not in a basic block!")
    | some block =>
      pure (this, Function.update σ block (insert_before (σ block) n.addr n.addr))

/-! ### `phi_node` -/

/-- A `phi_node`: the instruction part together with `num_reserved_` and `blocks_`. -/
structure phi_node where
  inst : instruction
  num_reserved_ : Nat
  blocks_ : List (Option basic_block)
  deriving DecidableEq, Repr

/-- `std::vector::resize(n)` with value-initialised (null) new elements. -/
def vector_resize {α : Type} (l : List (Option α)) (n : Nat) : List (Option α) :=
  l.take n ++ List.replicate (n - l.length) none

/--
```
void phi_node::set_incoming_value(unsigned i, value *v){
  assert(v && "PHI node got a null value!");
  assert(get_type() == v->get_type() &&
         "All operands to PHI node must be the same type as the PHI node!");
  set_operand(i, v);
}
```
-/
def phi_node.set_incoming_value (self : phi_node) (i : Nat) (v : Option value) :
    Except error phi_node :=
  match v with
  | none => .error (.assertion "PHI node got a null value!")
  | some w => do
    assert (decide (self.inst.ty = w.get_type))
      "All operands to PHI node must be the same type as the PHI node!"
    let inst ← self.inst.set_operand i (some w)
    pure { self with inst := inst }

/--
```
void phi_node::set_incoming_block(unsigned i, basic_block *block){
  assert(block && "PHI node got a null basic block!");
  blocks_[i] = block;
}
```
-/
def phi_node.set_incoming_block (self : phi_node) (i : Nat) (block : Option basic_block) :
    Except error phi_node :=
  match block with
  | none => .error (.assertion "PHI node got a null basic block!")
  | some b =>
    if i < self.blocks_.length then
      pure { self with blocks_ := self.blocks_.set i (some b) }
    else .error .out_of_bounds

/--
```
void phi_node::add_incoming(value *v, basic_block *block){
  if(get_num_operands()==num_reserved_){
    num_reserved_++;
    resize_ops(num_reserved_);
    blocks_.resize(num_reserved_);
  }
  set_incoming_value(get_num_operands() - 1, v);
  set_incoming_block(get_num_operands() - 1, block);
}
```
`unsigned` arithmetic is modulo `2^32`. -/
def phi_node.add_incoming (self : phi_node) (v : Option value) (block : Option basic_block) :
    Except error phi_node := do
  let grown : phi_node :=
    if self.inst.get_num_operands = self.num_reserved_ then
      let r := (self.num_reserved_ + 1) % 2 ^ 32
      { inst := { self.inst with ops_ := vector_resize self.inst.ops_ r },
        num_reserved_ := r,
        blocks_ := vector_resize self.blocks_ r }
    else self
  let p1 ← grown.set_incoming_value ((grown.inst.get_num_operands + (2 ^ 32 - 1)) % 2 ^ 32) v
  p1.set_incoming_block ((p1.inst.get_num_operands + (2 ^ 32 - 1)) % 2 ^ 32) block

/--
```
phi_node::phi_node(type *ty, unsigned num_reserved, std::string const &name, instruction *next)
  : instruction(ty, num_reserved, name, next){ }
phi_node* phi_node::create(...){ return new phi_node(ty, num_reserved, name, next); }
```
The constructor initialises neither `num_reserved_` nor `blocks_`; the header is not among
the sources, so the value `num_reserved_` starts with is a parameter. -/
def phi_node.create (self : Nat) (ty : type) (num_reserved : Nat) (next : Option instruction)
    (σ : block_store) (num_reserved_init : Nat) : Except error (phi_node × block_store) := do
  let (inst, σ1) ← instruction.ctor self ty num_reserved next σ
  pure (⟨inst, num_reserved_init, []⟩, σ1)

/-! ### `branch_inst` -/

/--
```
branch_inst::branch_inst(basic_block *if_dst, basic_block *else_dst, value *cond, instruction *next)
    : terminator_inst(type::get_void_ty(if_dst->get_context()), 3, "", next){
  assert(cond->get_type()->is_integer_ty(1) && "May only branch on boolean predicates!");
  set_operand(0, if_dst);
  set_operand(1, else_dst);
  set_operand(2, cond);
}
```
-/
def branch_inst.ctor (self : Nat) (if_dst else_dst : basic_block) (cond : value)
    (next : Option instruction) (σ : block_store) : Except error (instruction × block_store) := do
  let (i0, σ1) ← instruction.ctor self type.void_ty 3 next σ
  assert (cond.get_type.is_integer_ty 1) "May only branch on boolean predicates!"
  let i1 ← i0.set_operand 0 (some if_dst.as_value)
  let i2 ← i1.set_operand 1 (some else_dst.as_value)
  let i3 ← i2.set_operand 2 (some cond)
  pure (i3, σ1)

/--
```
branch_inst* branch_inst::create(value *cond, basic_block *if_dst, basic_block *else_dst, instruction *next) {
  assert(cond->get_type()->is_integer_ty(1) && "May only branch on boolean predicates!");
  return new branch_inst(if_dst, else_dst, cond, next);
}
```
-/
def branch_inst.create (self : Nat) (cond : value) (if_dst else_dst : basic_block)
    (next : Option instruction) (σ : block_store) : Except error (instruction × block_store) := do
  assert (cond.get_type.is_integer_ty 1) "May only branch on boolean predicates!"
  branch_inst.ctor self if_dst else_dst cond next σ

/-! ### `getelementptr_inst` -/

/-- Modelled from the spec: the members of the missing `ir/type.h` that `instructions.cpp`
calls on a `type*` and whose definitions are not among the sources.  They are parameters
of the embedding: `is_sized()`, whether `dynamic_cast<composite_type*>` succeeds,
`composite_type::index_valid(idx)`, `composite_type::get_type_at_index(idx)` and
`get_integer_bitwidth()`. -/
structure type_api where
  is_sized : type → Bool
  is_composite : type → Bool
  index_valid : type → value → Bool
  get_type_at_index : type → value → type
  get_integer_bitwidth : type → Nat

/-- Modelled from the spec: `type::is_pointer_ty()` of the missing `ir/type.h`. -/
def type.is_pointer_ty : type → Bool
  | .pointer_ty _ _ => true
  | _ => false

/-- The loop of `get_indexed_type_impl`, from the state `(cur_idx, ty)`:
```
  for(; cur_idx != idx_list.size(); cur_idx++){
    composite_type *cty = dynamic_cast<composite_type*>(ty);
    if(!cty || cty->is_pointer_ty())
      break;
    value *idx = idx_list[cur_idx];
    if(!cty->index_valid(idx))
      break;
    ty = cty->get_type_at_index(idx);
  }
```
The result is the state in which the loop is left.  `cur_idx` is `unsigned`, so `cur_idx++`
is modulo `2^32`; the first argument bounds the number of iterations. -/
def getelementptr_inst.indexed_type_loop (T : type_api) (idx_list : List value) :
    Nat → Nat → type → Nat × type
  | 0, cur_idx, ty => (cur_idx, ty)
  | fuel + 1, cur_idx, ty =>
    if cur_idx = idx_list.length then (cur_idx, ty)
    else if !(T.is_composite ty) || ty.is_pointer_ty then (cur_idx, ty)
    else
      match idx_list[cur_idx]? with
      | none => (cur_idx, ty)
      | some idx =>
        if !(T.index_valid ty idx) then (cur_idx, ty)
        else
          getelementptr_inst.indexed_type_loop T idx_list fuel ((cur_idx + 1) % 2 ^ 32)
            (T.get_type_at_index ty idx)

/--
```
type *getelementptr_inst::get_indexed_type_impl(type *ty, const std::vector<value *> &idx_list) {
  if(idx_list.empty())
    return ty;
  if(!ty->is_sized())
    return nullptr;
  unsigned cur_idx = 1;
  for(...){ ... }
  return (cur_idx == idx_list.size())? ty : nullptr;
}
```
`none` is the null pointer.  The loop is run for at most `idx_list.size()` iterations, which
is all of them for a list of fewer than `2^32` indices. -/
def getelementptr_inst.get_indexed_type_impl (T : type_api) (ty : type)
    (idx_list : List value) : Option type :=
  if idx_list.isEmpty then some ty
  else if !(T.is_sized ty) then none
  else
    let r := getelementptr_inst.indexed_type_loop T idx_list idx_list.length 1 ty
    if r.1 = idx_list.length then some r.2 else none

/--
```
type *getelementptr_inst::get_indexed_type(type *ty, const std::vector<value *> &idx_list) {
  type *result = get_indexed_type_impl(ty, idx_list);
  assert(result && "invalid GEP type!");
  return result;
}
```
-/
def getelementptr_inst.get_indexed_type (T : type_api) (ty : type) (idx_list : List value) :
    Except error type :=
  match getelementptr_inst.get_indexed_type_impl T ty idx_list with
  | some result => .ok result
  | none => .error (.assertion "invalid GEP type!")

/-- One step into a type, as a reference for `get_indexed_type_impl`: the current type
must be a composite type that is not a pointer type, and the index must be valid for it. -/
def index_step (T : type_api) (t : type) (idx : value) : Option type :=
  if T.is_composite t && !(t.is_pointer_ty) && T.index_valid t idx then
    some (T.get_type_at_index t idx)
  else none

/-- The type reached by indexing `t` successively with the given indices, as a reference
for `get_indexed_type_impl`; `none` when a step is not possible. -/
def index_successively (T : type_api) : type → List value → Option type
  | t, [] => some t
  | t, idx :: rest =>
    match index_step T t idx with
    | some t1 => index_successively T t1 rest
    | none => none

/-- An instance of the parameters, on which the embedding is evaluated at concrete inputs:
integers, floating point types and pointers are sized, a tile is sized when its element is;
the tiles are the composite types, indexed by integers, with their element as type at every
index; the bit width of a tile of integers is that of its element. -/
def tile_types : type_api where
  is_sized := fun t =>
    match t with
    | .integer_ty _ => true
    | .half_ty => true
    | .float_ty => true
    | .double_ty => true
    | .pointer_ty _ _ => true
    | .tile_ty (.integer_ty _) _ => true
    | .tile_ty .half_ty _ => true
    | .tile_ty .float_ty _ => true
    | .tile_ty .double_ty _ => true
    | .tile_ty (.pointer_ty _ _) _ => true
    | _ => false
  is_composite := fun t =>
    match t with
    | .tile_ty _ _ => true
    | _ => false
  index_valid := fun _ idx =>
    match idx.ty with
    | .integer_ty _ => true
    | .tile_ty (.integer_ty _) _ => true
    | _ => false
  get_type_at_index := fun t _ =>
    match t with
    | .tile_ty e _ => e
    | t => t
  get_integer_bitwidth := fun t =>
    match t with
    | .integer_ty b => b
    | .tile_ty (.integer_ty b) _ => b
    | _ => 0

/-! ### `cast_inst` -/

/-- The cast opcodes `ic::...` that `cast_inst::create` switches over. -/
inductive cast_op where
  | Trunc | ZExt | SExt | FPTrunc | FPExt | UIToFP | SIToFP | FPToUI | FPToSI
  | PtrToInt | IntToPtr | BitCast | AddrSpaceCast
  deriving DecidableEq, Repr

/-- A cast instruction: the subclass that `cast_inst::create` instantiates is determined by
the opcode (`trunc_inst` for `Trunc`, `z_ext_inst` for `ZExt`, ...). -/
structure cast_inst where
  op : cast_op
  inst : instruction
  deriving DecidableEq, Repr

/--
```
unary_inst::unary_inst(type *ty, value *v, const std::string &name, instruction *next)
    : instruction(ty, 1, name, next) {
  set_operand(0, v);
}
```
-/
def unary_inst.ctor (self : Nat) (ty : type) (v : Option value) (next : Option instruction)
    (σ : block_store) : Except error (instruction × block_store) := do
  let (i0, σ1) ← instruction.ctor self ty 1 next σ
  let i1 ← i0.set_operand 0 v
  pure (i1, σ1)

/--
```
cast_inst *cast_inst::create(op_t op, value *arg, type *ty, const std::string &name, instruction *next){
  assert(is_valid(op, arg, ty) && "Invalid cast!");
  switch (op) {
  case ic::Trunc:         return new trunc_inst           (ty, arg, name, next);
  ...
  case ic::AddrSpaceCast: return new addr_space_cast_inst (ty, arg, name, next);
  default: throw std::runtime_error("unreachable");
  }
}
```
`is_valid` is not defined among the sources and is a parameter.  Every enumerator has its
case, each of them constructing the unary instruction of the subclass of that opcode. -/
def cast_inst.create (is_valid : cast_op → value → type → Bool) (self : Nat) (op : cast_op)
    (arg : value) (ty : type) (next : Option instruction) (σ : block_store) :
    Except error (cast_inst × block_store) := do
  assert (is_valid op arg ty) "Invalid cast!"
  let (i, σ1) ← unary_inst.ctor self ty (some arg) next σ
  pure (⟨op, i⟩, σ1)

/-- Modelled from the spec: `type::is_int_or_tileint_ty()` of the missing `ir/type.h`: an
integer type, or a tile of integers. -/
def type.is_int_or_tileint_ty : type → Bool
  | .integer_ty _ => true
  | .tile_ty (.integer_ty _) _ => true
  | _ => false

/-- The opcode that `create_integer_cast` selects:
```
  op_t op = (arg_bits == dst_bits ? ic::BitCast :
            (arg_bits > dst_bits  ? ic::Trunc :
            (is_signed            ? ic::SExt : ic::ZExt)));
```
-/
def integer_cast_op (arg_bits dst_bits : Nat) (is_signed : Bool) : cast_op :=
  if arg_bits = dst_bits then .BitCast
  else if arg_bits > dst_bits then .Trunc
  else if is_signed then .SExt else .ZExt

/--
```
cast_inst *cast_inst::create_integer_cast(value *arg, type *ty, bool is_signed, const std::string &name, instruction *next){
  type *arg_ty = arg->get_type();
  assert(arg_ty->is_int_or_tileint_ty() && ty->is_int_or_tileint_ty() && "Invalid integer cast!");
  unsigned arg_bits = arg_ty->get_integer_bitwidth();
  unsigned dst_bits = ty->get_integer_bitwidth();
  op_t op = ...;
  return create(op, arg, ty, name, next);
}
```
-/
def cast_inst.create_integer_cast (T : type_api) (is_valid : cast_op → value → type → Bool)
    (self : Nat) (arg : value) (ty : type) (is_signed : Bool) (next : Option instruction)
    (σ : block_store) : Except error (cast_inst × block_store) := do
  let arg_ty := arg.get_type
  assert (arg_ty.is_int_or_tileint_ty && ty.is_int_or_tileint_ty) "Invalid integer cast!"
  let arg_bits := T.get_integer_bitwidth arg_ty
  let dst_bits := T.get_integer_bitwidth ty
  let op := integer_cast_op arg_bits dst_bits is_signed
  cast_inst.create is_valid self op arg ty next σ

/-- Scenario "forced overlap" of the specification: buffer A live `[0,5)` of 128 bytes and
buffer B live `[3,8)` of 128 bytes. -/
def forced_overlap : liveness :=
  ⟨0, [], [], [(⟨0, 128⟩, ⟨0, 5⟩), (⟨1, 128⟩, ⟨3, 8⟩)], [], [], [], [],
    [(10, ⟨0, 128⟩), (11, ⟨1, 128⟩)], [(⟨0, 128⟩, [10]), (⟨1, 128⟩, [11])]⟩

/-- Scenario "disjoint reuse" of the specification: buffer A live `[0,3)` of 128 bytes and
buffer B live `[5,8)` of 256 bytes. -/
def disjoint_reuse : liveness :=
  ⟨0, [], [], [(⟨0, 128⟩, ⟨0, 3⟩), (⟨1, 256⟩, ⟨5, 8⟩)], [], [], [], [],
    [(10, ⟨0, 128⟩), (11, ⟨1, 256⟩)], [(⟨0, 128⟩, [10]), (⟨1, 256⟩, [11])]⟩

/-! ## Lemmas on `std::map` lookups -/

theorem ptr_equiv_iff (a b : Nat) : (!(ptr_lt a b) && !(ptr_lt b a)) = true ↔ a = b := by
  simp only [ptr_lt, Bool.and_eq_true, Bool.not_eq_true', decide_eq_false_iff_not, not_lt]
  constructor
  · rintro ⟨h1, h2⟩
    exact le_antisymm h2 h1
  · rintro rfl
    exact ⟨le_refl _, le_refl _⟩

theorem map_find_ptr_none {V : Type} (m : List (Nat × V)) (k : Nat) :
    map_find ptr_lt m k = none ↔ ∀ e ∈ m, e.1 ≠ k := by
  unfold map_find
  rw [List.find?_eq_none]
  constructor
  · intro h e he hk
    exact h e he ((ptr_equiv_iff e.1 k).mpr hk)
  · intro h e he hk
    exact h e he ((ptr_equiv_iff e.1 k).mp hk)

theorem map_find_ptr_some {V : Type} (m : List (Nat × V)) (k : Nat) (e : Nat × V)
    (h : map_find ptr_lt m k = some e) : e ∈ m ∧ e.1 = k := by
  unfold map_find at h
  have hp := List.find?_some h
  exact ⟨List.mem_of_find?_eq_some h, (ptr_equiv_iff e.1 k).mp hp⟩

theorem map_at_ptr_failed {V : Type} (m : List (Nat × V)) (k : Nat) :
    (map_at ptr_lt m k = .error .out_of_range ↔ (map_find ptr_lt m k).isSome = false) ∧
    (failed (map_at ptr_lt m k) = true ↔ (map_find ptr_lt m k).isSome = false) := by
  unfold map_at
  cases map_find ptr_lt m k <;> simp [failed]

theorem map_at_ptr_stored {V : Type} (m : List (Nat × V)) (k : Nat)
    (h : (map_find ptr_lt m k).isSome = true) :
    ∃ v, (k, v) ∈ m ∧ map_at ptr_lt m k = .ok v := by
  unfold map_at
  cases hf : map_find ptr_lt m k with
  | none => simp [hf] at h
  | some e =>
    obtain ⟨hm, hk⟩ := map_find_ptr_some m k e hf
    refine ⟨e.2, ?_, rfl⟩
    rw [← hk]
    exact hm

/-! ## Lemmas on the alias graph -/

theorem mem_set_insert (s : List Nat) (x y : Nat) : y ∈ set_insert s x ↔ y = x ∨ y ∈ s := by
  induction s with
  | nil => simp [set_insert]
  | cons a t ih =>
    unfold set_insert
    by_cases h1 : x < a
    · simp [h1]
    · by_cases h2 : x = a
      · subst h2
        simp
      · simp only [h1, h2, if_false, List.mem_cons, ih]
        tauto

theorem mem_set_erase (s : List Nat) (x y : Nat) : y ∈ set_erase s x ↔ y ∈ s ∧ y ≠ x := by
  simp [set_erase]

theorem map_find_ptr_cons {V : Type} (e : Nat × V) (t : List (Nat × V)) (z : Nat) :
    map_find ptr_lt (e :: t) z = if e.1 = z then some e else map_find ptr_lt t z := by
  by_cases h : e.1 = z
  · have hq : (!(ptr_lt e.1 z) && !(ptr_lt z e.1)) = true := (ptr_equiv_iff _ _).mpr h
    rw [if_pos h]
    simp only [map_find, List.find?, hq]
  · have hq : (!(ptr_lt e.1 z) && !(ptr_lt z e.1)) = false := by
      rw [← Bool.not_eq_true, ptr_equiv_iff]
      exact h
    rw [if_neg h]
    simp only [map_find, List.find?, hq]

theorem map_find_map_set {V : Type} (m : List (Nat × V)) (k z : Nat) (v : V) :
    map_find ptr_lt (map_set ptr_lt m k v) z =
      if z = k then some (k, v) else map_find ptr_lt m z := by
  induction m with
  | nil =>
    unfold map_set
    rw [map_find_ptr_cons]
    by_cases hz : z = k
    · subst hz
      simp
    · have hk : ¬ k = z := fun h => hz h.symm
      simp [hz, hk]
  | cons e t ih =>
    unfold map_set
    by_cases hek : e.1 = k
    · rw [if_pos ((ptr_equiv_iff _ _).mpr hek), map_find_ptr_cons, map_find_ptr_cons]
      by_cases hz : z = k
      · subst hz
        simp [hek]
      · have hk : ¬ k = z := fun h => hz h.symm
        simp [hz, hek, hk]
    · have hq : ¬ ((!(ptr_lt e.1 k) && !(ptr_lt k e.1)) = true) :=
        fun h => hek ((ptr_equiv_iff _ _).mp h)
      rw [if_neg hq, map_find_ptr_cons, map_find_ptr_cons, ih]
      by_cases hez : e.1 = z
      · have hz : ¬ z = k := fun h => hek (hez.trans h)
        simp [hez, hz]
      · simp [hez]

theorem adj_graph_insert (g : List (Nat × List Nat)) (x y z : Nat) :
    adj (graph_insert g x y) z = if z = x then set_insert (adj g x) y else adj g z := by
  unfold graph_insert
  conv_lhs => unfold adj
  rw [map_find_map_set]
  by_cases hz : z = x
  · simp only [hz, if_true]
    rfl
  · simp only [hz, if_false]
    rfl

theorem mem_adj_graph_insert (g : List (Nat × List Nat)) (x y z w : Nat) :
    w ∈ adj (graph_insert g x y) z ↔ (z = x ∧ w = y) ∨ w ∈ adj g z := by
  rw [adj_graph_insert]
  by_cases hz : z = x
  · subst hz
    simp [mem_set_insert]
  · simp [hz]

theorem mem_adj_add_alias (l : liveness) (a b z w : Nat) :
    w ∈ adj (l.add_alias a b).graph_ z ↔
      (z = a ∧ w = b) ∨ (z = b ∧ w = a) ∨ w ∈ adj l.graph_ z := by
  simp only [liveness.add_alias, mem_adj_graph_insert]
  tauto

theorem mem_nodes_add_alias (l : liveness) (a b y : Nat) :
    y ∈ (l.add_alias a b).nodes_ ↔ y = a ∨ y = b ∨ y ∈ l.nodes_ := by
  simp only [liveness.add_alias, mem_set_insert]
  tauto

theorem edge_of_symm (i : ir_instruction) (z w : Nat) (h : edge_of i z w) : edge_of i w z := by
  obtain ⟨ps, hr, p, hp, h1⟩ := h
  exact ⟨ps, hr, p, hp, by tauto⟩

theorem alias_edge_iff (module : List ir_instruction) (a b : Nat) :
    alias_edge module a b = true ↔ ∃ i ∈ module, edge_of i a b := by
  unfold alias_edge
  rw [List.any_eq_true]
  constructor
  · rintro ⟨i, hi, h⟩
    refine ⟨i, hi, ?_⟩
    cases hr : i.role with
    | View ps =>
      rw [hr] at h
      simp only [Bool.or_eq_true, Bool.and_eq_true, decide_eq_true_eq] at h
      rcases h with ⟨h1, h2⟩ | ⟨h1, h2⟩
      · exact ⟨ps, hr, b, h2, Or.inl ⟨h1.symm, rfl⟩⟩
      · exact ⟨ps, hr, a, h2, Or.inr ⟨rfl, h1.symm⟩⟩
    | Producer => rw [hr] at h; cases h
    | None => rw [hr] at h; cases h
  · rintro ⟨i, hi, ps, hr, p, hp, h⟩
    refine ⟨i, hi, ?_⟩
    rw [hr]
    simp only [Bool.or_eq_true, Bool.and_eq_true, decide_eq_true_eq]
    rcases h with ⟨h1, h2⟩ | ⟨h1, h2⟩
    · exact Or.inl ⟨h1.symm, h2 ▸ hp⟩
    · exact Or.inr ⟨h2.symm, h1 ▸ hp⟩

theorem or_rearrange3 (A B C D : Prop) : ((A ∨ B ∨ C) ∨ D) ↔ (C ∨ (A ∨ B) ∨ D) := by
  tauto

theorem foldl_add_alias_edges (ps : List Nat) (l : liveness) (a z w : Nat) :
    w ∈ adj (ps.foldl (fun l p => l.add_alias a p) l).graph_ z ↔
      w ∈ adj l.graph_ z ∨ ∃ p ∈ ps, (z = a ∧ w = p) ∨ (z = p ∧ w = a) := by
  induction ps generalizing l with
  | nil => simp
  | cons q t ih =>
    rw [List.foldl_cons, ih, mem_adj_add_alias]
    simp only [List.mem_cons, exists_eq_or_imp]
    exact or_rearrange3 _ _ _ _

theorem foldl_add_alias_nodes (ps : List Nat) (l : liveness) (a y : Nat) :
    y ∈ (ps.foldl (fun l p => l.add_alias a p) l).nodes_ ↔
      y ∈ l.nodes_ ∨ ∃ p ∈ ps, y = a ∨ y = p := by
  induction ps generalizing l with
  | nil => simp
  | cons q t ih =>
    rw [List.foldl_cons, ih, mem_nodes_add_alias]
    simp only [List.mem_cons, exists_eq_or_imp]
    exact or_rearrange3 _ _ _ _

theorem make_graph_edges (l : liveness) (i : ir_instruction) (z w : Nat) :
    w ∈ adj (l.make_graph i).graph_ z ↔ w ∈ adj l.graph_ z ∨ edge_of i z w := by
  unfold liveness.make_graph edge_of
  cases hr : i.role with
  | View ps =>
    simp only [foldl_add_alias_edges, storage_role.View.injEq, exists_eq_left']
  | Producer => simp
  | None => simp

theorem make_graph_nodes (l : liveness) (i : ir_instruction) (y : Nat) :
    (y ∈ l.nodes_ → y ∈ (l.make_graph i).nodes_) ∧
    (∀ w, edge_of i y w → y ∈ (l.make_graph i).nodes_) := by
  unfold liveness.make_graph edge_of
  cases hr : i.role with
  | View ps =>
    simp only [foldl_add_alias_nodes, storage_role.View.injEq, exists_eq_left']
    refine ⟨fun h => Or.inl h, ?_⟩
    rintro w ⟨p, hp, h⟩
    refine Or.inr ⟨p, hp, ?_⟩
    tauto
  | Producer =>
    simp only [mem_set_insert]
    refine ⟨fun h => Or.inr h, ?_⟩
    rintro w ⟨ps, hps, -⟩
    cases hps
  | None =>
    refine ⟨fun h => h, ?_⟩
    rintro w ⟨ps, hps, -⟩
    cases hps

theorem foldl_make_graph_edges (module : List ir_instruction) (l : liveness) (z w : Nat) :
    w ∈ adj (module.foldl liveness.make_graph l).graph_ z ↔
      w ∈ adj l.graph_ z ∨ ∃ i ∈ module, edge_of i z w := by
  induction module generalizing l with
  | nil => simp
  | cons j t ih =>
    rw [List.foldl_cons, ih, make_graph_edges]
    simp only [List.mem_cons, exists_eq_or_imp]
    exact or_assoc

theorem foldl_make_graph_nodes (module : List ir_instruction) (l : liveness) (y : Nat) :
    (y ∈ l.nodes_ → y ∈ (module.foldl liveness.make_graph l).nodes_) ∧
    (∀ w, (∃ i ∈ module, edge_of i y w) → y ∈ (module.foldl liveness.make_graph l).nodes_) := by
  induction module generalizing l with
  | nil =>
    refine ⟨fun h => h, ?_⟩
    rintro w ⟨i, hi, -⟩
    cases hi
  | cons j t ih =>
    rw [List.foldl_cons]
    refine ⟨fun h => (ih _).1 ((make_graph_nodes l j y).1 h), ?_⟩
    rintro w ⟨i, hi, he⟩
    rcases List.mem_cons.mp hi with rfl | hi2
    · exact (ih _).1 ((make_graph_nodes l i y).2 w he)
    · exact (ih _).2 w ⟨i, hi2, he⟩

/-! ## Lemmas on the traversal of a component -/

theorem sum_set_erase_le (f : Nat → Nat) (nodes : List Nat) (x : Nat) (hx : x ∈ nodes) :
    ((set_erase nodes x).map f).sum + f x ≤ (nodes.map f).sum := by
  induction nodes with
  | nil => cases hx
  | cons a t ih =>
    by_cases ha : a = x
    · subst ha
      have h1 : set_erase (a :: t) a = set_erase t a := by
        simp [set_erase]
      rw [h1]
      by_cases hm : a ∈ t
      · have := ih hm
        simp only [List.map_cons, List.sum_cons]
        omega
      · have h2 : set_erase t a = t := by
          unfold set_erase
          rw [List.filter_eq_self]
          intro y hy
          simp only [decide_eq_true_eq]
          exact fun h => hm (h ▸ hy)
        rw [h2]
        simp only [List.map_cons, List.sum_cons]
        omega
    · have hm : x ∈ t := by
        rcases List.mem_cons.mp hx with h | h
        · exact absurd h.symm ha
        · exact h
      have h1 : set_erase (a :: t) x = a :: set_erase t x := by
        simp [set_erase, ha]
      rw [h1]
      have := ih hm
      simp only [List.map_cons, List.sum_cons]
      omega

theorem set_erase_sublist (nodes : List Nat) (x : Nat) : List.Sublist (set_erase nodes x) nodes :=
  List.filter_sublist nodes

theorem component_spec (graph : List (Nat × List Nat)) (fuel : Nat) :
    ∀ work nodes members : List Nat,
      work.length + (nodes.map (fun v => (adj graph v).length + 1)).sum ≤ fuel →
      List.Sublist (component graph fuel work nodes members).1 nodes ∧
      (∀ w ∈ work, w ∉ (component graph fuel work nodes members).1) ∧
      (∀ z ∈ nodes, z ∉ (component graph fuel work nodes members).1 →
        ∀ w ∈ adj graph z, w ∉ (component graph fuel work nodes members).1) ∧
      (∀ z, z ∈ (component graph fuel work nodes members).2 ↔
        z ∈ members ∨ (z ∈ nodes ∧ z ∉ (component graph fuel work nodes members).1)) := by
  induction fuel with
  | zero =>
    intro work nodes members hf
    have hw : work = [] := List.length_eq_zero.mp (by omega)
    subst hw
    simp only [component]
    refine ⟨List.Sublist.refl _, ?_, ?_, ?_⟩
    · intro w hw
      cases hw
    · intro z hz hnz
      exact absurd hz hnz
    · intro z
      constructor
      · exact fun h => Or.inl h
      · rintro (h | ⟨h1, h2⟩)
        · exact h
        · exact absurd h1 h2
  | succ f ih =>
    intro work nodes members hf
    cases work with
    | nil =>
      simp only [component]
      refine ⟨List.Sublist.refl _, ?_, ?_, ?_⟩
      · intro w hw
        cases hw
      · intro z hz hnz
        exact absurd hz hnz
      · intro z
        constructor
        · exact fun h => Or.inl h
        · rintro (h | ⟨h1, h2⟩)
          · exact h
          · exact absurd h1 h2
    | cons x work =>
      by_cases hx : x ∈ nodes
      · have hstep : component graph (f + 1) (x :: work) nodes members =
            component graph f (adj graph x ++ work) (set_erase nodes x) (members ++ [x]) := by
          simp only [component, hx, if_true]
        rw [hstep]
        have hsum := sum_set_erase_le (fun v => (adj graph v).length + 1) nodes x hx
        simp only at hsum
        have hfuel : (adj graph x ++ work).length +
            ((set_erase nodes x).map (fun v => (adj graph v).length + 1)).sum ≤ f := by
          simp only [List.length_append, List.length_cons] at hf ⊢
          omega
        obtain ⟨h1, h2, h3, h4⟩ := ih (adj graph x ++ work) (set_erase nodes x)
          (members ++ [x]) hfuel
        have hxr : x ∉ (component graph f (adj graph x ++ work) (set_erase nodes x)
            (members ++ [x])).1 := by
          intro hmem
          have := (mem_set_erase nodes x x).mp (h1.subset hmem)
          exact this.2 rfl
        refine ⟨h1.trans (set_erase_sublist nodes x), ?_, ?_, ?_⟩
        · intro w hw
          rcases List.mem_cons.mp hw with rfl | hw2
          · exact hxr
          · exact h2 w (List.mem_append_right _ hw2)
        · intro z hz hnz w hw
          by_cases hzx : z = x
          · subst hzx
            exact h2 w (List.mem_append_left _ hw)
          · exact h3 z ((mem_set_erase nodes x z).mpr ⟨hz, hzx⟩) hnz w hw
        · intro z
          rw [h4 z, List.mem_append, List.mem_singleton, mem_set_erase]
          constructor
          · rintro ((h | h) | ⟨⟨h5, -⟩, h6⟩)
            · exact Or.inl h
            · subst h
              exact Or.inr ⟨hx, hxr⟩
            · exact Or.inr ⟨h5, h6⟩
          · rintro (h | ⟨h5, h6⟩)
            · exact Or.inl (Or.inl h)
            · by_cases hzx : z = x
              · exact Or.inl (Or.inr hzx)
              · exact Or.inr ⟨⟨h5, hzx⟩, h6⟩
      · have hstep : component graph (f + 1) (x :: work) nodes members =
            component graph f work nodes members := by
          simp only [component, hx, if_false]
        rw [hstep]
        have hfuel : work.length +
            (nodes.map (fun v => (adj graph v).length + 1)).sum ≤ f := by
          simp only [List.length_cons] at hf
          omega
        obtain ⟨h1, h2, h3, h4⟩ := ih work nodes members hfuel
        refine ⟨h1, ?_, h3, h4⟩
        intro w hw
        rcases List.mem_cons.mp hw with rfl | hw2
        · exact fun hmem => hx (h1.subset hmem)
        · exact h2 w hw2

theorem foldl_map_set_find (members : List Nat) (g : List (Nat × buffer_t)) (buffer : buffer_t)
    (z : Nat) :
    map_find ptr_lt (members.foldl (fun g v => map_set ptr_lt g v buffer) g) z =
      if z ∈ members then some (z, buffer) else map_find ptr_lt g z := by
  induction members generalizing g with
  | nil => simp
  | cons v t ih =>
    rw [List.foldl_cons, ih, map_find_map_set]
    by_cases h1 : z ∈ t
    · simp [h1]
    · by_cases h2 : z = v
      · subst h2
        simp [h1]
      · simp [h1, h2]

theorem sublist_length_lt (l1 l2 : List Nat) (x : Nat) (hs : List.Sublist l1 l2)
    (hx : x ∈ l2) (hn : x ∉ l1) : l1.length < l2.length := by
  rcases Nat.lt_or_ge l1.length l2.length with h | h
  · exact h
  · have := hs.eq_of_length_le h
    subst this
    exact absurd hx hn

theorem connected_components_spec (l : liveness) (num_bytes : Nat → Nat) (x : Nat)
    (group_id : Nat) :
    (l.connected_components num_bytes x l.nodes_ l.graph_ group_id).1.graph_ = l.graph_ ∧
    List.Sublist (l.connected_components num_bytes x l.nodes_ l.graph_ group_id).2 l.nodes_ ∧
    x ∉ (l.connected_components num_bytes x l.nodes_ l.graph_ group_id).2 ∧
    (∀ z ∈ l.nodes_, z ∉ (l.connected_components num_bytes x l.nodes_ l.graph_ group_id).2 →
      ∀ w ∈ adj l.graph_ z,
        w ∉ (l.connected_components num_bytes x l.nodes_ l.graph_ group_id).2) ∧
    ∃ buf : buffer_t, buf.id = group_id ∧ ∀ z,
      map_find ptr_lt
        (l.connected_components num_bytes x l.nodes_ l.graph_ group_id).1.groups_ z =
      if z ∈ l.nodes_ ∧
          z ∉ (l.connected_components num_bytes x l.nodes_ l.graph_ group_id).2
        then some (z, buf) else map_find ptr_lt l.groups_ z := by
  have hfuel : [x].length + (l.nodes_.map (fun v => (adj l.graph_ v).length + 1)).sum
      ≤ component_steps l.graph_ l.nodes_ := by
    simp only [component_steps, List.length_singleton]
    omega
  obtain ⟨h1, h2, h3, h4⟩ := component_spec l.graph_ _ [x] l.nodes_ [] hfuel
  refine ⟨rfl, h1, h2 x (List.mem_singleton_self x), h3,
    ⟨⟨group_id, (component l.graph_ (component_steps l.graph_ l.nodes_) [x] l.nodes_ []).2.foldl
      (fun m v => max m (num_bytes v)) 0⟩, rfl, ?_⟩⟩
  intro z
  simp only [liveness.connected_components]
  rw [foldl_map_set_find]
  have hz := h4 z
  simp only [List.not_mem_nil, false_or] at hz
  by_cases hm : z ∈ (component l.graph_ (component_steps l.graph_ l.nodes_) [x] l.nodes_ []).2
  · rw [if_pos hm, if_pos (hz.mp hm)]
  · rw [if_neg hm, if_neg (fun h => hm (hz.mpr h))]

theorem group_spec (fuel : Nat) :
    ∀ (l : liveness) (num_bytes : Nat → Nat) (group_id : Nat),
      l.nodes_.length ≤ fuel →
      (∀ z w, w ∈ adj l.graph_ z → z ∈ adj l.graph_ w) →
      (∀ z w, w ∈ adj l.graph_ z → z ∈ l.nodes_ → w ∈ l.nodes_) →
      (∀ z w, w ∈ adj l.graph_ z → z ∉ l.nodes_ →
        ∃ buf, map_find ptr_lt l.groups_ z = some (z, buf) ∧
          map_find ptr_lt l.groups_ w = some (w, buf)) →
      ∀ z w, w ∈ adj l.graph_ z →
        ∃ buf, map_find ptr_lt (liveness.group fuel l num_bytes group_id).groups_ z
            = some (z, buf) ∧
          map_find ptr_lt (liveness.group fuel l num_bytes group_id).groups_ w
            = some (w, buf) := by
  induction fuel with
  | zero =>
    intro l num_bytes group_id hlen _ _ hI2 z w hw
    have hn : l.nodes_ = [] := List.length_eq_zero.mp (by omega)
    simp only [liveness.group]
    exact hI2 z w hw (by simp [hn])
  | succ f ih =>
    intro l num_bytes group_id hlen hsym hI1 hI2 z w hw
    cases hn : l.nodes_ with
    | nil =>
      simp only [liveness.group, hn]
      exact hI2 z w hw (by simp [hn])
    | cons x rest =>
      have hx : x ∈ l.nodes_ := by simp [hn]
      obtain ⟨hg, hsub, hxr, hclosed, buf, -, hfind⟩ :=
        connected_components_spec l num_bytes x group_id
      have hstep : liveness.group (f + 1) l num_bytes group_id =
          liveness.group f
            { (l.connected_components num_bytes x l.nodes_ l.graph_ group_id).1 with
              nodes_ := (l.connected_components num_bytes x l.nodes_ l.graph_ group_id).2 }
            num_bytes (group_id + 1) := by
        conv_lhs => unfold liveness.group
        simp only [hn]
      rw [hstep]
      have hlt := sublist_length_lt _ _ x hsub hx hxr
      refine ih _ num_bytes (group_id + 1) (by simp only; omega) ?_ ?_ ?_ z w
        (by simp only [hg]; exact hw)
      · intro a b hab
        simp only [hg] at hab ⊢
        exact hsym a b hab
      · intro a b hab ha
        simp only [hg] at hab ha ⊢
        have ha2 : a ∈ l.nodes_ := hsub.subset ha
        have hb2 : b ∈ l.nodes_ := hI1 a b hab ha2
        by_contra hb
        exact hclosed b hb2 hb a (hsym a b hab) ha
      · intro a b hab ha
        simp only [hg] at hab ha ⊢
        rw [hfind a, hfind b]
        by_cases ha2 : a ∈ l.nodes_
        · have hb2 : b ∈ l.nodes_ := hI1 a b hab ha2
          have hb3 := hclosed a ha2 ha b hab
          exact ⟨buf, by rw [if_pos ⟨ha2, ha⟩], by rw [if_pos ⟨hb2, hb3⟩]⟩
        · have hb2 : b ∉ l.nodes_ := fun h => ha2 (hI1 b a (hsym a b hab) h)
          obtain ⟨buf2, h5, h6⟩ := hI2 a b hab ha2
          exact ⟨buf2, by rw [if_neg (fun h => ha2 h.1), h5],
            by rw [if_neg (fun h => hb2 h.1), h6]⟩

theorem run_groups_edge (tiles : Nat) (num_bytes : Nat → Nat) (module : List ir_instruction)
    (a b : Nat) (h : alias_edge module a b = true) :
    ∃ buf, map_find ptr_lt (liveness.run tiles num_bytes module).groups_ a = some (a, buf) ∧
      map_find ptr_lt (liveness.run tiles num_bytes module).groups_ b = some (b, buf) := by
  have hedges : ∀ z w, w ∈ adj (module.foldl liveness.make_graph
      ⟨tiles, [], [], [], [], [], [], [], [], []⟩).graph_ z ↔ ∃ i ∈ module, edge_of i z w := by
    intro z w
    rw [foldl_make_graph_edges]
    simp [adj, map_find]
  unfold liveness.run
  apply group_spec _ _ num_bytes 0 (le_refl _)
  · intro z w hw
    rw [hedges] at hw ⊢
    obtain ⟨i, hi, he⟩ := hw
    exact ⟨i, hi, edge_of_symm i z w he⟩
  · intro z w hw _
    rw [hedges] at hw
    obtain ⟨i, hi, he⟩ := hw
    exact (foldl_make_graph_nodes module _ w).2 z ⟨i, hi, edge_of_symm i z w he⟩
  · intro z w hw hz
    rw [hedges] at hw
    exact absurd ((foldl_make_graph_nodes module _ z).2 w hw) hz
  · rw [hedges]
    exact (alias_edge_iff module a b).mp h

/-! ## Lemmas on the offset assignment -/

theorem mem_set_cases {α : Type} (l : List α) (i : Nat) (x y : α) (h : y ∈ l.set i x) :
    y = x ∨ y ∈ l := by
  induction l generalizing i with
  | nil => simp at h
  | cons a t ih =>
    cases i with
    | zero =>
      simp only [List.set_cons_zero, List.mem_cons] at h
      rcases h with h | h
      · exact Or.inl h
      · exact Or.inr (List.mem_cons_of_mem _ h)
    | succ j =>
      simp only [List.set_cons_succ, List.mem_cons] at h
      rcases h with h | h
      · exact Or.inr (h ▸ List.mem_cons_self _ _)
      · rcases ih j h with h1 | h1
        · exact Or.inl h1
        · exact Or.inr (List.mem_cons_of_mem _ h1)

theorem mem_vector_resize {α : Type} (l : List (Option α)) (n : Nat) (u : α)
    (h : some u ∈ vector_resize l n) : some u ∈ l := by
  unfold vector_resize at h
  rcases List.mem_append.mp h with h1 | h1
  · exact List.mem_of_mem_take h1
  · simp [List.mem_replicate] at h1

theorem vector_resize_succ {α : Type} (l : List (Option α)) (n : Nat) (hn : l.length = n) :
    vector_resize l (n + 1) = l ++ [none] := by
  subst hn
  unfold vector_resize
  rw [List.take_of_length_le (Nat.le_succ _)]
  simp

theorem set_last_append {α : Type} (l : List α) (x y : α) (n : Nat) (hn : l.length = n) :
    (l ++ [x]).set n y = l ++ [y] := by
  subst hn
  induction l with
  | nil => rfl
  | cons a t ih => simp [ih]

theorem set_incoming_value_ok (p p1 : phi_node) (i : Nat) (v : Option value)
    (h : p.set_incoming_value i v = .ok p1) :
    ∃ w, v = some w ∧ w.get_type = p.inst.ty ∧ i < p.inst.ops_.length ∧
      p1 = { p with inst := { p.inst with ops_ := p.inst.ops_.set i (some w) } } := by
  cases v with
  | none => simp [phi_node.set_incoming_value] at h
  | some w =>
    by_cases ht : p.inst.ty = w.get_type
    · by_cases hi : i < p.inst.ops_.length
      · simp [phi_node.set_incoming_value, instruction.set_operand, assert, ht, hi, bind,
          Except.bind, pure, Except.pure] at h
        exact ⟨w, rfl, ht.symm, hi, by rw [← h, ← ht]⟩
      · simp [phi_node.set_incoming_value, instruction.set_operand, assert, ht, hi, bind,
          Except.bind] at h
    · simp [phi_node.set_incoming_value, assert, ht, bind, Except.bind] at h

theorem set_incoming_block_ok (p p1 : phi_node) (i : Nat) (b : Option basic_block)
    (h : p.set_incoming_block i b = .ok p1) : p1.inst = p.inst := by
  cases b with
  | none => simp [phi_node.set_incoming_block] at h
  | some blk =>
    by_cases hi : i < p.blocks_.length
    · simp [phi_node.set_incoming_block, hi, pure, Except.pure] at h
      rw [← h]
    · simp [phi_node.set_incoming_block, hi] at h

/-! ## Theorems -/

/-- C3: `s.contains(i)` is true exactly when `s.start ≤ i` and `i < s.end`; in particular
the end index itself is never contained. -/
theorem segment_contains_iff (s : segment) (i : slot_index) :
    (s.contains i = true ↔ (s.start ≤ i ∧ i < s.«end»)) ∧ s.contains s.«end» = false := by
  constructor
  · simp [segment.contains]
  · simp [segment.contains]

/-- C2: for two segments with `start < end`, `a.intersect(b)` is true exactly when some
slot index is contained in both. -/
theorem segment_intersect_iff_overlap (a b : segment)
    (ha : a.start < a.«end») (hb : b.start < b.«end») :
    a.intersect b = true ↔ ∃ i : slot_index, a.contains i = true ∧ b.contains i = true := by
  simp only [segment.intersect, segment.contains, Bool.or_eq_true, Bool.and_eq_true,
    decide_eq_true_eq]
  constructor
  · rintro (⟨h1, h2⟩ | ⟨h1, h2⟩)
    · exact ⟨b.start, ⟨h1, h2⟩, le_refl _, hb⟩
    · exact ⟨a.start, ⟨le_refl _, ha⟩, h1, h2⟩
  · rintro ⟨i, ⟨h1, h2⟩, h3, h4⟩
    rcases Nat.le_total a.start b.start with h | h
    · exact Or.inl ⟨h, lt_of_le_of_lt h3 h2⟩
    · exact Or.inr ⟨h, lt_of_le_of_lt h1 h4⟩

theorem segment_intersect_iff_overlap_witness :
    (segment.mk 0 5).intersect (segment.mk 3 8) = true ↔
      ∃ i : slot_index, (segment.mk 0 5).contains i = true ∧ (segment.mk 3 8).contains i = true :=
  segment_intersect_iff_overlap (segment.mk 0 5) (segment.mk 3 8) (by decide) (by decide)

/-- C4 (as stated, refuted): the empty segment `[5,5)` intersects `[3,8)`, in both orders. -/
theorem empty_segment_intersects :
    ¬ (∀ s t : segment, s.start = s.«end» → s.intersect t = false ∧ t.intersect s = false) := by
  intro h
  have h1 := (h (segment.mk 5 5) (segment.mk 3 8) rfl).1
  revert h1
  decide

/-- C4 (amended): a segment `s` with `start == end` contains no slot index, and
`s.intersect(t)` and `t.intersect(s)` both equal `t.contains(s.start)`: they are false
exactly when the point `s.start` lies outside `[t.start, t.end)`. -/
theorem empty_segment_intersect (s t : segment) (h : s.start = s.«end») :
    (∀ i, s.contains i = false) ∧
    s.intersect t = t.contains s.start ∧ t.intersect s = t.contains s.start := by
  have hc : ∀ i, s.contains i = false := by
    intro i
    simp only [segment.contains, Bool.and_eq_false_imp, decide_eq_true_eq,
      decide_eq_false_iff_not, ← h]
    intro h1
    exact not_lt.mpr h1
  refine ⟨hc, ?_, ?_⟩
  · simp [segment.intersect, hc]
  · simp [segment.intersect, hc]

theorem empty_segment_intersect_witness :
    (∀ i, (segment.mk 5 5).contains i = false) ∧
    (segment.mk 5 5).intersect (segment.mk 3 8) = (segment.mk 3 8).contains 5 ∧
    (segment.mk 3 8).intersect (segment.mk 5 5) = (segment.mk 3 8).contains 5 :=
  empty_segment_intersect (segment.mk 5 5) (segment.mk 3 8) rfl

/-- C7: `buffer_t` is ordered by `id` only.  `a < b` holds exactly when `a.id < b.id`,
whatever the sizes; two buffers with the same id are equivalent keys (neither is less than
the other), so a lookup in a map keyed by `buffer_t` finds the same entry for both. -/
theorem buffer_lt_by_id_only (a b : buffer_t) :
    (a.lt b = true ↔ a.id < b.id) ∧
    (∀ s1 s2 : Nat, (buffer_t.mk a.id s1).lt (buffer_t.mk b.id s2) = a.lt b) ∧
    (a.id = b.id →
      a.lt b = false ∧ b.lt a = false ∧
      (∀ m : List (buffer_t × segment), map_find buffer_t.lt m a = map_find buffer_t.lt m b) ∧
      (∀ m : List (buffer_t × List Nat), map_find buffer_t.lt m a = map_find buffer_t.lt m b)) := by
  refine ⟨by simp [buffer_t.lt], fun _ _ => rfl, ?_⟩
  intro h
  have hk : ∀ e : buffer_t, e.lt a = e.lt b ∧ a.lt e = b.lt e := by
    intro e
    simp [buffer_t.lt, h]
  refine ⟨by simp [buffer_t.lt, h], by simp [buffer_t.lt, h], ?_, ?_⟩
  · intro m
    unfold map_find
    congr 1
    funext e
    rw [(hk e.1).1, (hk e.1).2]
  · intro m
    unfold map_find
    congr 1
    funext e
    rw [(hk e.1).1, (hk e.1).2]

theorem buffer_lt_by_id_only_witness :
    (buffer_t.mk 1 128).lt (buffer_t.mk 1 256) = false ∧
    (buffer_t.mk 1 256).lt (buffer_t.mk 1 128) = false ∧
    map_find buffer_t.lt [(buffer_t.mk 1 128, segment.mk 0 4)] (buffer_t.mk 1 256)
      = some (buffer_t.mk 1 128, segment.mk 0 4) := by
  have h := (buffer_lt_by_id_only (buffer_t.mk 1 128) (buffer_t.mk 1 256)).2.2 rfl
  refine ⟨h.1, h.2.1, ?_⟩
  rw [← h.2.2.1]
  decide

/-- C5: `offset(x)` fails, with the not-found error `std::out_of_range`, exactly when
`has_offset(x)` is false; when `has_offset(x)` is true it returns an offset stored for `x`
in `offsets_`; neither query changes the allocation object. -/
theorem allocation_offset_query (a : allocation) (x : Nat) :
    (failed (a.offset x).1 = true ↔ (a.has_offset x).1 = false) ∧
    ((a.offset x).1 = .error .out_of_range ↔ (a.has_offset x).1 = false) ∧
    ((a.has_offset x).1 = true → ∃ o, (x, o) ∈ a.offsets_ ∧ (a.offset x).1 = .ok o) ∧
    (a.offset x).2 = a ∧ (a.has_offset x).2 = a := by
  refine ⟨(map_at_ptr_failed a.offsets_ x).2, (map_at_ptr_failed a.offsets_ x).1, ?_, rfl, rfl⟩
  intro h
  exact map_at_ptr_stored a.offsets_ x h

theorem allocation_offset_query_witness :
    ∃ o, (7, o) ∈ (allocation.mk [(3, 0), (7, 128)] 256 0 0).offsets_ ∧
      ((allocation.mk [(3, 0), (7, 128)] 256 0 0).offset 7).1 = .ok o :=
  (allocation_offset_query (allocation.mk [(3, 0), (7, 128)] 256 0 0) 7).2.2.1 (by decide)

/-- C6: `get_buffer(v)` fails with `std::out_of_range` exactly when `v` has no entry in
`groups_`; `get_double(v)` fails with `std::out_of_range` exactly when `has_double(v)` is
false; otherwise each returns an entry stored for `v`; no query changes the liveness
object. -/
theorem liveness_queries (l : liveness) (v : Nat) :
    ((l.get_buffer v).1 = .error .out_of_range ↔ ∀ e ∈ l.groups_, e.1 ≠ v) ∧
    (failed (l.get_buffer v).1 = true ↔ ∀ e ∈ l.groups_, e.1 ≠ v) ∧
    ((l.get_double v).1 = .error .out_of_range ↔ (l.has_double v).1 = false) ∧
    (failed (l.get_double v).1 = true ↔ (l.has_double v).1 = false) ∧
    ((∃ e ∈ l.groups_, e.1 = v) → ∃ b, (v, b) ∈ l.groups_ ∧ (l.get_buffer v).1 = .ok b) ∧
    ((l.has_double v).1 = true → ∃ d, (v, d) ∈ l.double_ ∧ (l.get_double v).1 = .ok d) ∧
    (l.get_buffer v).2 = l ∧ (l.has_double v).2 = l ∧ (l.get_double v).2 = l := by
  have hnone : (map_find ptr_lt l.groups_ v).isSome = false ↔ ∀ e ∈ l.groups_, e.1 ≠ v := by
    rw [← map_find_ptr_none]
    cases map_find ptr_lt l.groups_ v <;> simp
  refine ⟨?_, ?_, (map_at_ptr_failed l.double_ v).1, (map_at_ptr_failed l.double_ v).2,
    ?_, ?_, rfl, rfl, rfl⟩
  · exact (map_at_ptr_failed l.groups_ v).1.trans hnone
  · exact (map_at_ptr_failed l.groups_ v).2.trans hnone
  · rintro ⟨e, he, hk⟩
    apply map_at_ptr_stored
    cases hf : map_find ptr_lt l.groups_ v with
    | none => exact absurd hk ((map_find_ptr_none l.groups_ v).mp hf e he)
    | some _ => rfl
  · intro h
    exact map_at_ptr_stored l.double_ v h

theorem liveness_queries_witness :
    (∃ b, (4, b) ∈ (liveness.mk 0 [] [] [] [(4, ⟨9, 4⟩)] [] [] [] [(4, ⟨0, 64⟩)] []).groups_ ∧
      ((liveness.mk 0 [] [] [] [(4, ⟨9, 4⟩)] [] [] [] [(4, ⟨0, 64⟩)] []).get_buffer 4).1 = .ok b) ∧
    (∃ d, (4, d) ∈ (liveness.mk 0 [] [] [] [(4, ⟨9, 4⟩)] [] [] [] [(4, ⟨0, 64⟩)] []).double_ ∧
      ((liveness.mk 0 [] [] [] [(4, ⟨9, 4⟩)] [] [] [] [(4, ⟨0, 64⟩)] []).get_double 4).1 = .ok d) :=
  ⟨(liveness_queries (liveness.mk 0 [] [] [] [(4, ⟨9, 4⟩)] [] [] [] [(4, ⟨0, 64⟩)] []) 4).2.2.2.2.1
      ⟨(4, ⟨0, 64⟩), by simp, rfl⟩,
   (liveness_queries (liveness.mk 0 [] [] [] [(4, ⟨9, 4⟩)] [] [] [] [(4, ⟨0, 64⟩)] []) 4).2.2.2.2.2.1
      (by decide)⟩

/-- C10: the conditional `branch_inst::create(cond, if_dst, else_dst)` aborts with the
assertion "May only branch on boolean predicates!" whenever the type of `cond` is not the
1-bit integer type, whatever `next` is; called without `next` it aborts exactly in that
case; and a branch it returns has exactly the three operands `if_dst`, `else_dst`, `cond`,
in this order. -/
theorem branch_create_boolean_predicate (self : Nat) (cond : value)
    (if_dst else_dst : basic_block) (next : Option instruction) (σ : block_store) :
    (failed (branch_inst.create self cond if_dst else_dst none σ) = true
      ↔ cond.get_type ≠ type.integer_ty 1) ∧
    (cond.get_type ≠ type.integer_ty 1 →
      branch_inst.create self cond if_dst else_dst next σ
        = .error (.assertion "May only branch on boolean predicates!")) ∧
    (cond.get_type = type.integer_ty 1 →
      ∃ br, branch_inst.create self cond if_dst else_dst none σ = .ok (br, σ) ∧
        br.ty = type.void_ty ∧ br.addr = self) ∧
    (∀ br σ1, branch_inst.create self cond if_dst else_dst next σ = .ok (br, σ1) →
      cond.get_type = type.integer_ty 1 ∧ br.get_num_operands = 3 ∧
      br.ops_ = [some if_dst.as_value, some else_dst.as_value, some cond]) := by
  by_cases h : cond.get_type = type.integer_ty 1
  · have hres : branch_inst.create self cond if_dst else_dst none σ =
        .ok (⟨self, type.void_ty,
          [some if_dst.as_value, some else_dst.as_value, some cond], none⟩, σ) := by
      simp [branch_inst.create, branch_inst.ctor, instruction.ctor,
        instruction.set_operand, assert, type.is_integer_ty, h, bind, Except.bind, pure,
        Except.pure, List.replicate]
    refine ⟨?_, fun hne => absurd h hne, fun _ => ⟨_, hres, rfl, rfl⟩, ?_⟩
    · rw [hres]
      simp [failed, h]
    · intro br σ1 hok
      refine ⟨h, ?_⟩
      cases next with
      | none =>
        rw [hres] at hok
        cases hok
        exact ⟨rfl, rfl⟩
      | some n =>
        cases hp : n.parent_ with
        | none =>
          simp [branch_inst.create, branch_inst.ctor, instruction.ctor,
            assert, type.is_integer_ty, h, bind, Except.bind, hp] at hok
        | some blk =>
          simp [branch_inst.create, branch_inst.ctor, instruction.ctor,
            instruction.set_operand, assert, type.is_integer_ty, h, bind, Except.bind, pure,
            Except.pure, List.replicate, hp] at hok
          obtain ⟨hbr, -⟩ := hok
          subst hbr
          exact ⟨rfl, rfl⟩
  · have hres : ∀ nx, branch_inst.create self cond if_dst else_dst nx σ =
        .error (.assertion "May only branch on boolean predicates!") := by
      intro nx
      simp [branch_inst.create, assert, type.is_integer_ty, h, bind, Except.bind]
    refine ⟨?_, fun _ => hres next, fun he => absurd he h, ?_⟩
    · rw [hres]
      simp [failed, h]
    · intro br σ1 hok
      rw [hres] at hok
      cases hok

theorem branch_create_boolean_predicate_witness :
    (branch_inst.create 100 ⟨7, type.integer_ty 32⟩ ⟨1, 0⟩ ⟨2, 0⟩ none (fun _ => [])
        = .error (.assertion "May only branch on boolean predicates!")) ∧
    (∃ br, branch_inst.create 100 ⟨7, type.integer_ty 1⟩ ⟨1, 0⟩ ⟨2, 0⟩ none (fun _ => [])
        = .ok (br, fun _ => []) ∧
      br.get_num_operands = 3 ∧
      br.ops_ = [some (basic_block.as_value ⟨1, 0⟩), some (basic_block.as_value ⟨2, 0⟩),
        some ⟨7, type.integer_ty 1⟩] ∧
      br.ty = type.void_ty ∧ br.addr = 100) :=
  ⟨(branch_create_boolean_predicate 100 ⟨7, type.integer_ty 32⟩ ⟨1, 0⟩ ⟨2, 0⟩ none
      (fun _ => [])).2.1 (by decide),
   by
    obtain ⟨br, hbr, hty, haddr⟩ :=
      (branch_create_boolean_predicate 100 ⟨7, type.integer_ty 1⟩ ⟨1, 0⟩ ⟨2, 0⟩ none
        (fun _ => [])).2.2.1 rfl
    have hops := (branch_create_boolean_predicate 100 ⟨7, type.integer_ty 1⟩ ⟨1, 0⟩ ⟨2, 0⟩ none
        (fun _ => [])).2.2.2 br _ hbr
    exact ⟨br, hbr, hops.2.1, hops.2.2, hty, haddr⟩⟩

/-- C9: `set_incoming_value(i, v)` aborts with an assertion when `v` is null and when the
type of `v` differs from the type of the phi node; otherwise, for an operand index `i` of
the phi node, it sets operand `i` to `v` and changes nothing else.  Hence whenever
`add_incoming(v, block)` returns, `v` is a non-null value of the type of the phi node and
every operand of the phi node is `v` or an operand it already had; and on a phi node whose
reserved slots are all in use it appends `v` and `block`. -/
theorem phi_incoming_type_checked (p : phi_node) (i : Nat) (v : Option value)
    (block : Option basic_block) :
    (v = none → p.set_incoming_value i v = .error (.assertion "PHI node got a null value!")) ∧
    (∀ w, v = some w → w.get_type ≠ p.inst.ty →
      p.set_incoming_value i v = .error (.assertion
        "All operands to PHI node must be the same type as the PHI node!")) ∧
    (∀ w, v = some w → w.get_type = p.inst.ty → i < p.inst.get_num_operands →
      p.set_incoming_value i v =
        .ok { p with inst := { p.inst with ops_ := p.inst.ops_.set i (some w) } } ∧
      (p.inst.ops_.set i (some w))[i]? = some (some w)) ∧
    ((v = none ∨ ∃ w, v = some w ∧ w.get_type ≠ p.inst.ty) →
      failed (p.add_incoming v block) = true) ∧
    (∀ p1, p.add_incoming v block = .ok p1 →
      ∃ w, v = some w ∧ w.get_type = p.inst.ty ∧ p1.inst.ty = p.inst.ty ∧
        ∀ u, some u ∈ p1.inst.ops_ → u = w ∨ some u ∈ p.inst.ops_) ∧
    (∀ w b, v = some w → block = some b → w.get_type = p.inst.ty →
      p.inst.get_num_operands = p.num_reserved_ → p.blocks_.length = p.num_reserved_ →
      p.num_reserved_ + 1 < 2 ^ 32 →
      p.add_incoming v block = .ok
        { inst := { p.inst with ops_ := p.inst.ops_ ++ [some w] },
          num_reserved_ := p.num_reserved_ + 1,
          blocks_ := p.blocks_ ++ [some b] }) := by
  have hok : ∀ p1, p.add_incoming v block = .ok p1 →
      ∃ w, v = some w ∧ w.get_type = p.inst.ty ∧ p1.inst.ty = p.inst.ty ∧
        ∀ u, some u ∈ p1.inst.ops_ → u = w ∨ some u ∈ p.inst.ops_ := by
    intro p1 h
    unfold phi_node.add_incoming at h
    simp only [bind, Except.bind] at h
    split at h
    · cases h
    · rename_i q hq
      obtain ⟨w, hv, hty, -, hq1⟩ := set_incoming_value_ok _ _ _ _ hq
      have hinst := set_incoming_block_ok _ _ _ _ h
      by_cases hr : p.inst.get_num_operands = p.num_reserved_
      · simp only [hr, if_true] at hty hq1
        refine ⟨w, hv, hty, ?_, ?_⟩
        · rw [hinst, hq1]
        · intro u hu
          rw [hinst, hq1] at hu
          rcases mem_set_cases _ _ _ _ hu with h1 | h1
          · exact Or.inl (Option.some.inj h1)
          · exact Or.inr (mem_vector_resize _ _ _ h1)
      · simp only [hr, if_false] at hty hq1
        refine ⟨w, hv, hty, ?_, ?_⟩
        · rw [hinst, hq1]
        · intro u hu
          rw [hinst, hq1] at hu
          rcases mem_set_cases _ _ _ _ hu with h1 | h1
          · exact Or.inl (Option.some.inj h1)
          · exact Or.inr h1
  refine ⟨?_, ?_, ?_, ?_, hok, ?_⟩
  · rintro rfl
    rfl
  · rintro w rfl hne
    have hne2 : ¬ p.inst.ty = w.get_type := fun h => hne h.symm
    simp [phi_node.set_incoming_value, assert, hne2, bind, Except.bind]
  · rintro w rfl hty hi
    have hi2 : i < p.inst.ops_.length := hi
    refine ⟨?_, ?_⟩
    · simp [phi_node.set_incoming_value, instruction.set_operand, assert, hty, hi2, bind,
        Except.bind, pure, Except.pure]
    · simp [hi2]
  · intro hbad
    cases hres : p.add_incoming v block with
    | error e => rfl
    | ok p1 =>
      obtain ⟨w, hv, hty, -⟩ := hok p1 hres
      rcases hbad with h1 | ⟨w2, h1, h2⟩
      · rw [h1] at hv
        cases hv
      · rw [h1] at hv
        cases hv
        exact absurd hty h2
  · rintro w b rfl rfl hty hn hb hlt
    have hn2 : p.inst.ops_.length = p.num_reserved_ := hn
    have hm1 : (p.num_reserved_ + 1) % 2 ^ 32 = p.num_reserved_ + 1 := Nat.mod_eq_of_lt hlt
    have hm2 : (p.num_reserved_ + 1 + (2 ^ 32 - 1)) % 2 ^ 32 = p.num_reserved_ := by omega
    unfold phi_node.add_incoming
    simp only [hn, if_true, hm1, instruction.get_num_operands]
    rw [vector_resize_succ _ _ hn2, vector_resize_succ _ _ hb]
    simp only [phi_node.set_incoming_value, phi_node.set_incoming_block,
      instruction.set_operand, assert, hty, bind, Except.bind, pure, Except.pure,
      List.length_append, List.length_singleton, hn2, hb, hm2, decide_True, if_true,
      Nat.lt_succ_self, set_last_append _ _ _ _ hn2, set_last_append _ _ _ _ hb]

theorem phi_incoming_type_checked_witness :
    (phi_node.set_incoming_value ⟨⟨50, type.float_ty, [none], none⟩, 1, [none]⟩ 0
        (some ⟨7, type.integer_ty 32⟩)
      = .error (.assertion "All operands to PHI node must be the same type as the PHI node!")) ∧
    (phi_node.add_incoming ⟨⟨50, type.float_ty, [none], none⟩, 1, [none]⟩
        (some ⟨7, type.float_ty⟩) (some ⟨1, 0⟩)
      = .ok ⟨⟨50, type.float_ty, [none, some ⟨7, type.float_ty⟩], none⟩, 2,
          [none, some ⟨1, 0⟩]⟩) :=
  ⟨(phi_incoming_type_checked ⟨⟨50, type.float_ty, [none], none⟩, 1, [none]⟩ 0
      (some ⟨7, type.integer_ty 32⟩) none).2.1 ⟨7, type.integer_ty 32⟩ rfl (by decide),
   (phi_incoming_type_checked ⟨⟨50, type.float_ty, [none], none⟩, 1, [none]⟩ 0
      (some ⟨7, type.float_ty⟩) (some ⟨1, 0⟩)).2.2.2.2.2 ⟨7, type.float_ty⟩ ⟨1, 0⟩ rfl rfl rfl
      rfl rfl (by decide)⟩

/-- C8: alias transitivity of the buffer grouping.  After `liveness::run` on a module, for
values `A`, `B`, `C` such that `A` and `B` are joined by a direct view-op alias edge and so
are `B` and `C`, the three calls `get_buffer(A)`, `get_buffer(B)`, `get_buffer(C)` return
one and the same `buffer_t`; and so does `get_buffer(D)` for every `D` that a chain of
alias edges connects to `A`. -/
theorem alias_transitivity (tiles : Nat) (num_bytes : Nat → Nat) (module : List ir_instruction)
    (A B C : Nat) (hAB : alias_edge module A B = true) (hBC : alias_edge module B C = true) :
    ∃ buf : buffer_t,
      ((liveness.run tiles num_bytes module).get_buffer A).1 = .ok buf ∧
      ((liveness.run tiles num_bytes module).get_buffer B).1 = .ok buf ∧
      ((liveness.run tiles num_bytes module).get_buffer C).1 = .ok buf ∧
      ∀ D, Relation.TransGen (fun x y => alias_edge module x y = true) A D →
        ((liveness.run tiles num_bytes module).get_buffer D).1 = .ok buf := by
  obtain ⟨buf, hA, hB⟩ := run_groups_edge tiles num_bytes module A B hAB
  obtain ⟨buf2, hB2, hC⟩ := run_groups_edge tiles num_bytes module B C hBC
  have hb : buf2 = buf := by
    rw [hB] at hB2
    exact ((Prod.mk.inj (Option.some.inj hB2)).2).symm
  subst hb
  refine ⟨buf2, ?_, ?_, ?_, ?_⟩
  · simp only [liveness.get_buffer, map_at, hA]
  · simp only [liveness.get_buffer, map_at, hB]
  · simp only [liveness.get_buffer, map_at, hC]
  · intro D hD
    have hfind : map_find ptr_lt (liveness.run tiles num_bytes module).groups_ D
        = some (D, buf2) := by
      induction hD with
      | single h =>
        obtain ⟨buf3, h1, h2⟩ := run_groups_edge tiles num_bytes module A _ h
        rw [hA] at h1
        rw [h2, (Prod.mk.inj (Option.some.inj h1)).2]
      | tail _ h ih =>
        obtain ⟨buf3, h1, h2⟩ := run_groups_edge tiles num_bytes module _ _ h
        rw [ih] at h1
        rw [h2, (Prod.mk.inj (Option.some.inj h1)).2]
    simp only [liveness.get_buffer, map_at, hfind]

theorem alias_transitivity_witness :
    ∃ buf : buffer_t,
      ((liveness.run 0 (fun v => 64 * v)
        [⟨1, .Producer⟩, ⟨2, .View [1]⟩, ⟨3, .View [2]⟩]).get_buffer 1).1 = .ok buf ∧
      ((liveness.run 0 (fun v => 64 * v)
        [⟨1, .Producer⟩, ⟨2, .View [1]⟩, ⟨3, .View [2]⟩]).get_buffer 2).1 = .ok buf ∧
      ((liveness.run 0 (fun v => 64 * v)
        [⟨1, .Producer⟩, ⟨2, .View [1]⟩, ⟨3, .View [2]⟩]).get_buffer 3).1 = .ok buf := by
  obtain ⟨buf, h1, h2, h3, -⟩ := alias_transitivity 0 (fun v => 64 * v)
    [⟨1, .Producer⟩, ⟨2, .View [1]⟩, ⟨3, .View [2]⟩] 1 2 3 (by decide) (by decide)
  exact ⟨buf, h1, h2, h3⟩

/-- Scenario "view chain" of the specification: in `reshape(splat(x))` the three values
resolve to one `buffer_t`, whose size is the largest of the three sizes. -/
theorem view_chain_scenario :
    (liveness.run 0 (fun v => 64 * v)
      [⟨1, .Producer⟩, ⟨2, .View [1]⟩, ⟨3, .View [2]⟩]).groups_
      = [(1, ⟨0, 192⟩), (2, ⟨0, 192⟩), (3, ⟨0, 192⟩)] := by
  decide

/-- Scenarios "forced overlap" and "disjoint reuse" of the specification, run through the
offset assignment: intersecting live ranges get the offsets 0 and 128 and a footprint of
256 bytes; disjoint live ranges both get offset 0 and the footprint is the larger size. -/
theorem allocation_scenarios :
    (allocation.run ⟨[], 0, 0, 0⟩ forced_overlap) = ⟨[(10, 0), (11, 128)], 256, 0, 0⟩ ∧
    (allocation.run ⟨[], 0, 0, 0⟩ disjoint_reuse) = ⟨[(10, 0), (11, 0)], 256, 0, 0⟩ := by
  decide

/-- C15: `segment::intersect` is symmetric for all segments, empty and inverted ones
included: `a.intersect(b) == b.intersect(a)`. -/
theorem segment_intersect_symm (a b : segment) : a.intersect b = b.intersect a := by
  unfold segment.intersect
  exact Bool.or_comm _ _

/-- C12 (the code at the failing input and in general): constructing an instruction with a
non-null `next` that sits in block `blk` inserts `next` itself, not the new instruction,
before the first occurrence of `next`: the list of `blk` has one more occurrence of `next`
than before, and the new instruction is in the list only if it was there before. -/
theorem instruction_ctor_inserts_next (self : Nat) (ty : type) (num_ops : Nat)
    (next : instruction) (blk : Nat) (σ : block_store) (hparent : next.parent_ = some blk) :
    ∃ this σ1, instruction.ctor self ty num_ops (some next) σ = .ok (this, σ1) ∧
      this.addr = self ∧
      σ1 blk = insert_before (σ blk) next.addr next.addr ∧
      (σ1 blk).count next.addr = (σ blk).count next.addr + 1 ∧
      (self ≠ next.addr → (σ1 blk).count self = (σ blk).count self) := by
  have hcount : ∀ (l : List Nat) (n y : Nat),
      (insert_before l n n).count y = l.count y + (if y = n then 1 else 0) := by
    intro l n y
    induction l with
    | nil =>
      by_cases h : y = n
      · subst h
        simp [insert_before]
      · have h2 : ¬ n = y := fun h3 => h h3.symm
        simp [insert_before, h, List.count_cons, h2]
    | cons a t ih =>
      unfold insert_before
      by_cases ha : a = n
      · rw [if_pos ha]
        by_cases h : y = n
        · subst h
          subst ha
          simp [List.count_cons]
        · have h2 : ¬ n = y := fun h3 => h h3.symm
          simp [List.count_cons, h, h2]
      · rw [if_neg ha, List.count_cons, ih, List.count_cons]
        omega
  refine ⟨⟨self, ty, List.replicate num_ops none, none⟩,
    Function.update σ blk (insert_before (σ blk) next.addr next.addr), ?_, rfl, ?_, ?_, ?_⟩
  · simp [instruction.ctor, hparent, pure, Except.pure]
  · simp
  · rw [Function.update_same, hcount]
    simp
  · intro hne
    rw [Function.update_same, hcount]
    simp [hne]

theorem instruction_ctor_inserts_next_witness :
    ∃ this σ1, instruction.ctor 100 type.void_ty 0 (some ⟨7, type.void_ty, [], some 1⟩)
        (fun b => if b = 1 then [5, 7, 9] else []) = .ok (this, σ1) ∧
      this.addr = 100 ∧
      σ1 1 = [5, 7, 7, 9] ∧ (σ1 1).count 7 = 2 ∧ (σ1 1).count 100 = 0 := by
  obtain ⟨this, σ1, h1, h2, h3, h4, h5⟩ := instruction_ctor_inserts_next 100 type.void_ty 0
    ⟨7, type.void_ty, [], some 1⟩ 1 (fun b => if b = 1 then [5, 7, 9] else []) rfl
  refine ⟨this, σ1, h1, h2, ?_, ?_, ?_⟩
  · rw [h3]
    decide
  · rw [h4]
    decide
  · rw [h5 (by decide)]
    decide

/-! ## Lemmas on `get_indexed_type_impl` -/

theorem index_step_none (T : type_api) (t : type) (idx : value) :
    index_step T t idx = none ↔
      (T.is_composite t = false ∨ t.is_pointer_ty = true ∨ T.index_valid t idx = false) := by
  unfold index_step
  cases T.is_composite t <;> cases t.is_pointer_ty <;> cases T.index_valid t idx <;> simp

theorem index_successively_none (T : type_api) (l : List value) :
    ∀ ty : type, index_successively T ty l = none ↔
      ∃ pre idx post t, l = pre ++ idx :: post ∧ index_successively T ty pre = some t ∧
        index_step T t idx = none := by
  induction l with
  | nil =>
    intro ty
    simp [index_successively]
  | cons a rest ih =>
    intro ty
    cases hstep : index_step T ty a with
    | none =>
      simp only [index_successively, hstep, true_iff]
      exact ⟨[], a, rest, ty, rfl, rfl, hstep⟩
    | some t1 =>
      simp only [index_successively, hstep]
      rw [ih t1]
      constructor
      · rintro ⟨pre, idx, post, t, h1, h2, h3⟩
        refine ⟨a :: pre, idx, post, t, by rw [h1]; rfl, ?_, h3⟩
        simp only [index_successively, hstep]
        exact h2
      · rintro ⟨pre, idx, post, t, h1, h2, h3⟩
        cases pre with
        | nil =>
          simp only [List.nil_append, List.cons.injEq] at h1
          simp only [index_successively, Option.some.injEq] at h2
          rw [← h1.1, ← h2, hstep] at h3
          cases h3
        | cons b pre1 =>
          simp only [List.cons_append, List.cons.injEq] at h1
          rw [← h1.1] at h2
          simp only [index_successively, hstep] at h2
          exact ⟨pre1, idx, post, t, h1.2, h2, h3⟩

theorem indexed_type_loop_spec (T : type_api) (idx_list : List value)
    (hlen : idx_list.length < 2 ^ 32) (fuel : Nat) :
    ∀ (cur_idx : Nat) (ty : type), cur_idx ≤ idx_list.length →
      idx_list.length - cur_idx ≤ fuel →
      (if (getelementptr_inst.indexed_type_loop T idx_list fuel cur_idx ty).1 = idx_list.length
        then some (getelementptr_inst.indexed_type_loop T idx_list fuel cur_idx ty).2
        else none) = index_successively T ty (idx_list.drop cur_idx) := by
  induction fuel with
  | zero =>
    intro cur_idx ty hle hfuel
    have hcur : cur_idx = idx_list.length := by omega
    subst hcur
    simp [getelementptr_inst.indexed_type_loop, index_successively]
  | succ f ih =>
    intro cur_idx ty hle hfuel
    by_cases hcur : cur_idx = idx_list.length
    · subst hcur
      simp [getelementptr_inst.indexed_type_loop, index_successively]
    · have hlt : cur_idx < idx_list.length := by omega
      have hmod : (cur_idx + 1) % 2 ^ 32 = cur_idx + 1 := Nat.mod_eq_of_lt (by omega)
      rw [List.drop_eq_getElem_cons hlt]
      simp only [getelementptr_inst.indexed_type_loop, hcur, if_false,
        List.getElem?_eq_getElem hlt, hmod, index_successively, index_step]
      cases hc : T.is_composite ty <;> cases hp : ty.is_pointer_ty <;>
        cases hv : T.index_valid ty idx_list[cur_idx] <;>
        simp [hcur]
      exact ih (cur_idx + 1) _ (by omega) (by omega)

/-- C14: `get_indexed_type_impl` never steps into the type with the first index.  For the
empty list it returns `ty`.  For a sized `ty` and a non-empty list (of fewer than `2^32`
indices) it returns the type reached by indexing `ty` successively with `idx_list[1]`, ...,
`idx_list[n-1]`; it returns null exactly when at one of these steps the current type is
not a composite type, is a pointer type, or the index is not valid for it; a one-element
list gives `ty` itself; and the first index has no influence on the result. -/
theorem gep_indexed_type_impl (T : type_api) (ty : type) (idx_list : List value) :
    getelementptr_inst.get_indexed_type_impl T ty [] = some ty ∧
    (T.is_sized ty = true → idx_list ≠ [] → idx_list.length < 2 ^ 32 →
      getelementptr_inst.get_indexed_type_impl T ty idx_list
        = index_successively T ty idx_list.tail ∧
      (getelementptr_inst.get_indexed_type_impl T ty idx_list = none ↔
        ∃ pre idx post t, idx_list.tail = pre ++ idx :: post ∧
          index_successively T ty pre = some t ∧
          (T.is_composite t = false ∨ t.is_pointer_ty = true ∨
            T.index_valid t idx = false))) ∧
    (∀ i, T.is_sized ty = true → getelementptr_inst.get_indexed_type_impl T ty [i] = some ty) ∧
    (∀ i j, idx_list.length + 1 < 2 ^ 32 →
      getelementptr_inst.get_indexed_type_impl T ty (i :: idx_list)
        = getelementptr_inst.get_indexed_type_impl T ty (j :: idx_list)) := by
  have hmain : ∀ l : List value, T.is_sized ty = true → l ≠ [] → l.length < 2 ^ 32 →
      getelementptr_inst.get_indexed_type_impl T ty l = index_successively T ty l.tail := by
    intro l hs hne hlen
    cases l with
    | nil => exact absurd rfl hne
    | cons a rest =>
      have h := indexed_type_loop_spec T (a :: rest) hlen (a :: rest).length 1 ty
        (by simp) (by simp)
      simp only [getelementptr_inst.get_indexed_type_impl, List.isEmpty_cons, hs,
        Bool.not_true, Bool.false_eq_true, if_false, List.tail_cons]
      rw [h]
      rfl
  refine ⟨rfl, ?_, ?_, ?_⟩
  · intro hs hne hlen
    refine ⟨hmain idx_list hs hne hlen, ?_⟩
    rw [hmain idx_list hs hne hlen, index_successively_none]
    constructor
    · rintro ⟨pre, idx, post, t, h1, h2, h3⟩
      exact ⟨pre, idx, post, t, h1, h2, (index_step_none T t idx).mp h3⟩
    · rintro ⟨pre, idx, post, t, h1, h2, h3⟩
      exact ⟨pre, idx, post, t, h1, h2, (index_step_none T t idx).mpr h3⟩
  · intro i hs
    rw [hmain [i] hs (by simp) (by simp)]
    rfl
  · intro i j hlen
    cases hs : T.is_sized ty with
    | false =>
      simp [getelementptr_inst.get_indexed_type_impl, hs]
    | true =>
      rw [hmain (i :: idx_list) hs (by simp) (by simpa using hlen),
        hmain (j :: idx_list) hs (by simp) (by simpa using hlen)]
      rfl

theorem gep_indexed_type_impl_witness :
    getelementptr_inst.get_indexed_type_impl tile_types
        (.tile_ty (.integer_ty 32) [4, 4]) [⟨1, .float_ty⟩, ⟨2, .integer_ty 32⟩]
      = index_successively tile_types (.tile_ty (.integer_ty 32) [4, 4]) [⟨2, .integer_ty 32⟩] ∧
    getelementptr_inst.get_indexed_type_impl tile_types
        (.tile_ty (.integer_ty 32) [4, 4]) [⟨1, .float_ty⟩, ⟨2, .integer_ty 32⟩]
      = some (.integer_ty 32) ∧
    getelementptr_inst.get_indexed_type_impl tile_types
        (.tile_ty (.integer_ty 32) [4, 4]) [⟨1, .float_ty⟩] = some (.tile_ty (.integer_ty 32) [4, 4]) :=
  ⟨((gep_indexed_type_impl tile_types (.tile_ty (.integer_ty 32) [4, 4])
      [⟨1, .float_ty⟩, ⟨2, .integer_ty 32⟩]).2.1 rfl (by simp) (by simp)).1,
   by decide,
   (gep_indexed_type_impl tile_types (.tile_ty (.integer_ty 32) [4, 4]) []).2.2.1
      ⟨1, .float_ty⟩ rfl⟩

/-- C11 (as stated, refuted): for the unsized type `void` and the empty index list,
`get_indexed_type` returns `void` instead of failing. -/
theorem gep_unsized_empty_list_accepted :
    tile_types.is_sized type.void_ty = false ∧
    getelementptr_inst.get_indexed_type tile_types type.void_ty [] = .ok type.void_ty :=
  ⟨rfl, rfl⟩

/-- C11 (amended): for a type that is not sized, `get_indexed_type(ty, idx_list)` fails
with the assertion "invalid GEP type!" for every non-empty index list; for the empty index
list it returns `ty`. -/
theorem gep_unsized_rejected (T : type_api) (ty : type) (idx_list : List value)
    (hunsized : T.is_sized ty = false) :
    (idx_list ≠ [] →
      getelementptr_inst.get_indexed_type T ty idx_list
        = .error (.assertion "invalid GEP type!")) ∧
    getelementptr_inst.get_indexed_type T ty [] = .ok ty := by
  refine ⟨?_, rfl⟩
  intro hne
  cases idx_list with
  | nil => exact absurd rfl hne
  | cons a rest =>
    simp [getelementptr_inst.get_indexed_type, getelementptr_inst.get_indexed_type_impl,
      hunsized]

theorem gep_unsized_rejected_witness :
    getelementptr_inst.get_indexed_type tile_types type.void_ty [⟨1, .integer_ty 32⟩]
      = .error (.assertion "invalid GEP type!") :=
  (gep_unsized_rejected tile_types type.void_ty [⟨1, .integer_ty 32⟩] rfl).1 (by simp)

/-! ## Lemmas on `cast_inst::create` -/

theorem cast_create_ok (is_valid : cast_op → value → type → Bool) (self : Nat) (op : cast_op)
    (arg : value) (ty : type) (next : Option instruction) (σ : block_store)
    (c : cast_inst) (σ1 : block_store)
    (h : cast_inst.create is_valid self op arg ty next σ = .ok (c, σ1)) :
    c.op = op ∧ is_valid op arg ty = true := by
  unfold cast_inst.create at h
  cases hv : is_valid op arg ty with
  | false => simp [assert, hv, bind, Except.bind] at h
  | true =>
    simp only [assert, hv, if_true, bind, Except.bind, pure, Except.pure] at h
    split at h
    · cases h
    · simp only [Except.ok.injEq, Prod.mk.injEq] at h
      exact ⟨by rw [← h.1], rfl⟩

/-- C13: `create_integer_cast` selects the opcode from the two bit widths alone.  A cast it
returns is a `BitCast` when the widths are equal, a `Trunc` when the argument is wider, and
otherwise an `SExt` when `is_signed` is true and a `ZExt` when it is false; when the
argument is at least as wide as the destination, `is_signed` has no effect on the call at
all.  The call returns a cast whenever both types are integer (or integer-tile) types and
the selected cast is valid. -/
theorem integer_cast_opcode (T : type_api) (is_valid : cast_op → value → type → Bool)
    (self : Nat) (arg : value) (ty : type) (is_signed : Bool) (next : Option instruction)
    (σ : block_store) :
    (∀ c σ1, cast_inst.create_integer_cast T is_valid self arg ty is_signed next σ = .ok (c, σ1) →
      (T.get_integer_bitwidth arg.get_type = T.get_integer_bitwidth ty → c.op = .BitCast) ∧
      (T.get_integer_bitwidth arg.get_type > T.get_integer_bitwidth ty → c.op = .Trunc) ∧
      (T.get_integer_bitwidth arg.get_type < T.get_integer_bitwidth ty →
        is_signed = true → c.op = .SExt) ∧
      (T.get_integer_bitwidth arg.get_type < T.get_integer_bitwidth ty →
        is_signed = false → c.op = .ZExt)) ∧
    (T.get_integer_bitwidth arg.get_type ≥ T.get_integer_bitwidth ty →
      cast_inst.create_integer_cast T is_valid self arg ty true next σ
        = cast_inst.create_integer_cast T is_valid self arg ty false next σ) ∧
    (arg.get_type.is_int_or_tileint_ty = true → ty.is_int_or_tileint_ty = true →
      is_valid (integer_cast_op (T.get_integer_bitwidth arg.get_type)
        (T.get_integer_bitwidth ty) is_signed) arg ty = true →
      cast_inst.create_integer_cast T is_valid self arg ty is_signed none σ
        = .ok (⟨integer_cast_op (T.get_integer_bitwidth arg.get_type)
            (T.get_integer_bitwidth ty) is_signed, ⟨self, ty, [some arg], none⟩⟩, σ)) := by
  refine ⟨?_, ?_, ?_⟩
  · intro c σ1 h
    unfold cast_inst.create_integer_cast at h
    cases hint : (arg.get_type.is_int_or_tileint_ty && ty.is_int_or_tileint_ty) with
    | false => simp [assert, hint, bind, Except.bind] at h
    | true =>
      simp only [assert, hint, if_true, bind, Except.bind] at h
      have hop := (cast_create_ok is_valid self _ arg ty next σ c σ1 h).1
      rw [hop]
      unfold integer_cast_op
      refine ⟨?_, ?_, ?_, ?_⟩
      · intro he
        rw [if_pos he]
      · intro hgt
        rw [if_neg (by omega), if_pos hgt]
      · intro hlt hs
        rw [if_neg (by omega), if_neg (by omega), hs]
        rfl
      · intro hlt hs
        rw [if_neg (by omega), if_neg (by omega), hs]
        rfl
  · intro hge
    have hop : integer_cast_op (T.get_integer_bitwidth arg.get_type)
        (T.get_integer_bitwidth ty) true
        = integer_cast_op (T.get_integer_bitwidth arg.get_type)
          (T.get_integer_bitwidth ty) false := by
      unfold integer_cast_op
      by_cases he : T.get_integer_bitwidth arg.get_type = T.get_integer_bitwidth ty
      · rw [if_pos he, if_pos he]
      · rw [if_neg he, if_neg he, if_pos (by omega), if_pos (by omega)]
    unfold cast_inst.create_integer_cast
    simp only [hop]
  · intro h1 h2 h3
    simp [cast_inst.create_integer_cast, cast_inst.create, unary_inst.ctor, instruction.ctor,
      instruction.set_operand, assert, h1, h2, h3, bind, Except.bind, pure, Except.pure,
      List.replicate]

theorem integer_cast_opcode_witness :
    cast_inst.create_integer_cast tile_types (fun _ _ _ => true) 100 ⟨7, .integer_ty 8⟩
        (.integer_ty 32) true none (fun _ => [])
      = .ok (⟨.SExt, ⟨100, .integer_ty 32, [some ⟨7, .integer_ty 8⟩], none⟩⟩, fun _ => []) ∧
    cast_inst.create_integer_cast tile_types (fun _ _ _ => true) 100 ⟨7, .integer_ty 64⟩
        (.integer_ty 32) true none (fun _ => [])
      = cast_inst.create_integer_cast tile_types (fun _ _ _ => true) 100 ⟨7, .integer_ty 64⟩
        (.integer_ty 32) false none (fun _ => []) :=
  ⟨(integer_cast_opcode tile_types (fun _ _ _ => true) 100 ⟨7, .integer_ty 8⟩
      (.integer_ty 32) true none (fun _ => [])).2.2 rfl rfl rfl,
   (integer_cast_opcode tile_types (fun _ _ _ => true) 100 ⟨7, .integer_ty 64⟩
      (.integer_ty 32) true none (fun _ => [])).2.1 (by decide)⟩

end Triton
